import Mathlib

/-!
# demo::Arr and demo::Iter (demo_arr.hpp): a shallow embedding

The container `demo::Arr<T>` owns a block of raw memory obtained from an
allocator.  The embedding makes the memory and the allocator explicit:

* an address is a natural number counted in elements, `0` is `nullptr`;
* a `World` holds the memory cells, the allocator's bookkeeping, a failure
  script for `allocate` and the log of calls made to the allocator;
* an operation of the source is a function `World T → Except Exn α × World T`,
  so that the state reached when an exception leaves the operation is visible;
* an `Arr` object is the pair of its two data members `size_` and `arr_`.
  A member function that changes the object returns the new object;
* an `Iter` object is its data member `ptr_`, an integer address;
* the element type is a parameter `T` with an `Element` instance, which says
  whether assignment into storage that holds no object is meaningful for it;
* a source range that lies outside the modelled memory (an initializer list,
  the range behind two iterators of the caller) is the list of its items.

Sizes and indices are `size_t` in the source.  No operation modelled here
performs arithmetic on them that could wrap, so they are natural numbers.
-/

namespace demo

/-- What can leave an operation instead of a result: `std::out_of_range`
(thrown by `throw_out_of_range`), `std::bad_alloc` (thrown by the allocator),
and `undefined` for an access the language gives no meaning to (reading a cell
that holds no object, touching memory that is not allocated, a loop that runs
past its end). -/
inductive Exn
  | out_of_range
  | bad_alloc
  | undefined
  deriving DecidableEq, Repr

/-- One cell of memory: not allocated, allocated but holding no object, or
holding a live object. -/
inductive Cell (T : Type)
  | unalloc
  | raw
  | live (v : T)
  deriving DecidableEq, Repr

/-- The calls the container makes through `AllocTraits`. -/
inductive Event
  | allocate (n : Nat)
  | deallocate (p : Nat) (n : Nat)
  | construct (p : Nat)
  | destroy (p : Nat)
  deriving DecidableEq, Repr

/-- The memory and the allocator.  `next` is the highest address handed out so
far, `blocks` the blocks currently allocated (base and length), `script` says
for each coming call of `allocate` whether it throws (`true`) or not, and
`trace` logs the allocator calls in order. -/
@[ext] structure World (T : Type) where
  mem : Nat → Cell T
  next : Nat
  blocks : List (Nat × Nat)
  script : List Bool
  trace : List Event

/-- An operation of the source: runs in a world, gives a result or an
exception, and the world it leaves behind. -/
def M (T α : Type) : Type := World T → Except Exn α × World T

/-- Sequencing: an exception skips the rest. -/
def M.bind {T α β : Type} (m : M T α) (f : α → M T β) : M T β := fun w =>
  match m w with
  | (.ok a, w1) => f a w1
  | (.error e, w1) => (.error e, w1)

instance {T : Type} : Monad (M T) where
  pure a := fun w => (.ok a, w)
  bind := M.bind

/-- A `throw` expression. -/
def raise {T α : Type} (e : Exn) : M T α := fun w => (.error e, w)

/-- Reading `*p`: the cell has to hold a live object. -/
def read {T : Type} (p : Nat) : M T T := fun w =>
  match w.mem p with
  | .live v => (.ok v, w)
  | _ => (.error .undefined, w)

/-- What the embedding needs to know about the element type `T`: whether it
is an implicit-lifetime type (a scalar such as `int`, or a trivial class), for
which an assignment into allocated storage that holds no object is meaningful.
For any other class type (`std::string`, say) the copy assignment operator
runs on its left operand and needs an object there. -/
class Element (T : Type) where
  implicit_lifetime : Bool

/-- The element type `int`. -/
instance : Element Int := ⟨true⟩

/-- The element type `std::string`, a class type with a non-trivial copy
assignment. -/
instance : Element String := ⟨false⟩

/-- The assignment `*p = v` (the copy assignment of the element type, which is
what `std::copy` and `std::fill` perform).  On a cell that holds a live object
it replaces the value.  On an allocated cell that holds no object (never
constructed, or destroyed) it is meaningful only for an implicit-lifetime
element type, and undefined otherwise.  On memory that is not allocated it is
undefined. -/
def write {T : Type} [Element T] (p : Nat) (v : T) : M T Unit := fun w =>
  match w.mem p with
  | .live _ => (.ok (), { w with mem := Function.update w.mem p (.live v) })
  | .raw =>
    if Element.implicit_lifetime T then
      (.ok (), { w with mem := Function.update w.mem p (.live v) })
    else (.error .undefined, w)
  | .unalloc => (.error .undefined, w)

/-- The call `AllocTraits::allocate(alloc_, n)` for `std::allocator`: throws
when the script says so, else hands out a fresh block of `n` raw cells at a
non-null address (also for `n = 0`, as `operator new` does). -/
def allocate {T : Type} (n : Nat) : M T Nat := fun w =>
  match w.script with
  | true :: rest =>
    (.error .bad_alloc, { w with script := rest, trace := w.trace ++ [.allocate n] })
  | _ =>
    let p := w.next + 1
    (.ok p,
      { mem := fun i => if p ≤ i ∧ i < p + n then .raw else w.mem i
        next := p + n
        blocks := (p, n) :: w.blocks
        script := w.script.tail
        trace := w.trace ++ [.allocate n] })

/-- The call `AllocTraits::deallocate(alloc_, p, n)`: releases the block
`(p, n)`; `deallocate(nullptr, 0)` does nothing; anything else is undefined. -/
def deallocate {T : Type} (p : Nat) (n : Nat) : M T Unit := fun w =>
  if (p, n) ∈ w.blocks then
    (.ok (),
      { w with
        mem := fun i => if p ≤ i ∧ i < p + n then .unalloc else w.mem i
        blocks := w.blocks.erase (p, n)
        trace := w.trace ++ [.deallocate p n] })
  else if p = 0 ∧ n = 0 then
    (.ok (), { w with trace := w.trace ++ [.deallocate p n] })
  else
    (.error .undefined, { w with trace := w.trace ++ [.deallocate p n] })

/-- The call `AllocTraits::construct(alloc_, p)` with no further arguments:
value-initialises the cell. -/
def construct {T : Type} [Inhabited T] (p : Nat) : M T Unit := fun w =>
  match w.mem p with
  | .unalloc => (.error .undefined, { w with trace := w.trace ++ [.construct p] })
  | _ =>
    (.ok (),
      { w with
        mem := Function.update w.mem p (.live default)
        trace := w.trace ++ [.construct p] })

/-- The call `AllocTraits::destroy(alloc_, p)`: the cell holds no object
afterwards. -/
def destroy {T : Type} (p : Nat) : M T Unit := fun w =>
  match w.mem p with
  | .unalloc => (.error .undefined, { w with trace := w.trace ++ [.destroy p] })
  | _ =>
    (.ok (),
      { w with
        mem := Function.update w.mem p .raw
        trace := w.trace ++ [.destroy p] })

/-- The data member of `demo::Iter`: the raw address `ptr_`.  Offsets are
signed (`difference_type`), and pointer arithmetic that leaves the address
range is undefined in the source, so the address and the offsets are
integers. -/
structure Iter where
  ptr_ : Int
  deriving DecidableEq, Repr

namespace Iter

/-- Source: `operator==(const Iter& lhs, const Iter& rhs)`: `lhs.ptr_ == rhs.ptr_`. -/
def op_eq (lhs rhs : Iter) : Bool := lhs.ptr_ == rhs.ptr_

/-- Source: `operator!=`: `!(lhs == rhs)`. -/
def op_ne (lhs rhs : Iter) : Bool := !(op_eq lhs rhs)

/-- Source: `operator*()`: `*ptr_`, a read of the cell the iterator points to. -/
def deref {T : Type} (it : Iter) : M T T :=
  if it.ptr_ < 0 then raise .undefined else read it.ptr_.toNat

/-- Source: `operator->()`: `ptr_`. -/
def arrow (it : Iter) : Int := it.ptr_

/-- Source: `operator++()`: `++ptr_; return *this;`, the iterator afterwards. -/
def pre_inc (it : Iter) : Iter := { it with ptr_ := it.ptr_ + 1 }

/-- Source: `operator++(int)`: `Iter temp(*this); ++(*this); return temp;`, the
iterator afterwards and the value returned. -/
def post_inc (it : Iter) : Iter × Iter :=
  let temp := it
  let it := pre_inc it
  (it, temp)

/-- Source: `operator--()`: `--ptr_; return *this;`, the iterator afterwards. -/
def pre_dec (it : Iter) : Iter := { it with ptr_ := it.ptr_ - 1 }

/-- Source: `operator--(int)`: `Iter temp(*this); --(*this); return temp;`, the
iterator afterwards and the value returned. -/
def post_dec (it : Iter) : Iter × Iter :=
  let temp := it
  let it := pre_dec it
  (it, temp)

/-- Source: `operator[](difference_type n)`: the reference `ptr_[n]`, as the
address of the cell. -/
def subscript (it : Iter) (n : Int) : Int := it.ptr_ + n

/-- Source: `operator+=(difference_type rhs)`: `ptr_ += rhs; return *this;`. -/
def add_assign (it : Iter) (rhs : Int) : Iter := { it with ptr_ := it.ptr_ + rhs }

/-- Source: `operator+(Iter lhs, difference_type rhs)`: `return lhs += rhs;`. -/
def add (lhs : Iter) (rhs : Int) : Iter := add_assign lhs rhs

/-- Source: `operator+(difference_type lhs, Iter rhs)`: `return rhs += lhs;`. -/
def radd (lhs : Int) (rhs : Iter) : Iter := add_assign rhs lhs

/-- Source: `operator-=(difference_type rhs)`: `ptr_ -= rhs; return *this;`. -/
def sub_assign (it : Iter) (rhs : Int) : Iter := { it with ptr_ := it.ptr_ - rhs }

/-- Source: `operator-(Iter lhs, Iter rhs)`: `lhs.ptr_ - rhs.ptr_`. -/
def diff (lhs rhs : Iter) : Int := lhs.ptr_ - rhs.ptr_

/-- Source: `operator-(Iter lhs, difference_type rhs)`: `return lhs -= rhs;`. -/
def sub (lhs : Iter) (rhs : Int) : Iter := sub_assign lhs rhs

/-- Source: `operator<(const Iter& lhs, const Iter& rhs)`: `lhs.ptr_ < rhs.ptr_`. -/
def op_lt (lhs rhs : Iter) : Bool := decide (lhs.ptr_ < rhs.ptr_)

/-- Source: `operator>`: `rhs < lhs`. -/
def op_gt (lhs rhs : Iter) : Bool := op_lt rhs lhs

/-- Source: `operator<=`: `!(rhs < lhs)`. -/
def op_le (lhs rhs : Iter) : Bool := !(op_lt rhs lhs)

/-- Source: `operator>=`: `!(lhs < rhs)`. -/
def op_ge (lhs rhs : Iter) : Bool := !(op_lt lhs rhs)

end Iter

/-- The adaptor `std::reverse_iterator<iterator>` of the standard library, as
far as the container uses it: it stores an iterator `current`. -/
structure RevIter where
  current : Iter
  deriving DecidableEq, Repr

namespace RevIter

/-- The standard `reverse_iterator::operator*`: `Iter tmp = current; return *--tmp;`. -/
def deref {T : Type} (r : RevIter) : M T T :=
  let tmp := r.current
  let tmp := tmp.pre_dec
  tmp.deref

/-- The standard `reverse_iterator::operator++`: `--current; return *this;`. -/
def pre_inc (r : RevIter) : RevIter := { r with current := r.current.pre_dec }

/-- The standard `operator!=` of two reverse iterators: `x.base() != y.base()`. -/
def op_ne (x y : RevIter) : Bool := Iter.op_ne x.current y.current

end RevIter

/-- The iterator category the range operations dispatch on: a single-pass
source (`std::input_iterator_tag`) or a multi-pass one
(`std::forward_iterator_tag` and the tags derived from it). -/
inductive IterCategory
  | input
  | forward
  deriving DecidableEq, Repr

/-- The data members of `demo::Arr`. -/
structure Arr where
  size_ : Nat
  arr_ : Nat
  deriving DecidableEq, Repr

namespace Arr

/-- Source: `Arr() noexcept : size_(), arr_(nullptr) {}` -/
def mk_empty : Arr := ⟨0, 0⟩

/-- Source: `size()` -/
def size (a : Arr) : Nat := a.size_

/-- Source: `empty()` -/
def empty (a : Arr) : Bool := a.size_ == 0

/-- Source: `data()` -/
def data (a : Arr) : Nat := a.arr_

/-- Source: `begin()`: `iterator(&arr_[0])`, the address held by the iterator. -/
def begin_ (a : Arr) : Nat := a.arr_ + 0

/-- Source: `end()`: `iterator(&arr_[size_])`. -/
def end_ (a : Arr) : Nat := a.arr_ + a.size_

/-- Source: `operator[](size_type) const`: the reference `arr_[index]`, as the address
of the cell. -/
def subscript (a : Arr) (index : Nat) : Nat := a.arr_ + index

/-- Source: `operator[](size_type)`, the mutable overload: the same expression. -/
def subscript_mut (a : Arr) (index : Nat) : Nat := a.arr_ + index

/-- Source: `throw_out_of_range()` -/
def throw_out_of_range {T α : Type} : M T α := raise .out_of_range

/-- Source: `at(size_type) const` -/
def «at» {T : Type} (a : Arr) (index : Nat) : M T Nat :=
  if index ≥ a.size_ then throw_out_of_range
  else pure (a.arr_ + index)

/-- Source: `at(size_type)`, the mutable overload: a `const_cast` of the read-only
one. -/
def at_mut {T : Type} (a : Arr) (index : Nat) : M T Nat := a.at index

/-- Source: `swap(Arr&, Arr&)`: `swap(a.size_, b.size_); swap(a.arr_, b.arr_);`.
Returns the two objects after the exchange. -/
def swap (a b : Arr) : Arr × Arr :=
  let a1 : Arr := { a with size_ := b.size_ }
  let b1 : Arr := { b with size_ := a.size_ }
  let a2 : Arr := { a1 with arr_ := b1.arr_ }
  let b2 : Arr := { b1 with arr_ := a1.arr_ }
  (a2, b2)

/-- The loop of `destroy_range`: `for (; first != last; ++first) destroy(first.ptr_)`.
The first argument bounds the number of iterations; the loop test is the one
of the source, and running past the bound is reported as `undefined`. -/
def destroy_range.loop {T : Type} : Nat → Nat → Nat → M T Unit
  | 0, first, last => if first ≠ last then raise .undefined else pure ()
  | k + 1, first, last =>
    if first ≠ last then do
      destroy first
      destroy_range.loop k (first + 1) last
    else pure ()

/-- Source: `destroy_range(iterator first, iterator last)` -/
def destroy_range {T : Type} (first last : Nat) : M T Unit :=
  destroy_range.loop (last - first) first last

/-- Source: `ctor_impl(size_type size)`: both members are assigned, none is read; the
result is the object afterwards. -/
def ctor_impl {T : Type} (size : Nat) : M T Arr := do
  let arr ← if size ≠ 0 then allocate size else pure 0
  pure ⟨size, arr⟩

/-- Source: `dtor_impl()` -/
def dtor_impl {T : Type} (this : Arr) : M T Unit := do
  destroy_range this.begin_ this.end_
  deallocate this.arr_ this.size_

/-- Source: `realloc_to_size_empty(size_type size)` -/
def realloc_to_size_empty {T : Type} (this : Arr) (size : Nat) : M T Arr := do
  let temp ← allocate size
  dtor_impl this
  let this : Arr := { this with arr_ := temp }
  let this : Arr := { this with size_ := size }
  pure this

/-- The loop of `std::copy(first, last, d_first)` between two ranges of
memory: `for (; first != last; ++first, ++d_first) *d_first = *first;`,
returning the final `d_first`. -/
def std_copy.loop {T : Type} [Element T] : Nat → Nat → Nat → Nat → M T Nat
  | 0, first, last, d_first => if first ≠ last then raise .undefined else pure d_first
  | k + 1, first, last, d_first =>
    if first ≠ last then do
      let v ← read first
      write d_first v
      std_copy.loop k (first + 1) last (d_first + 1)
    else pure d_first

/-- Source: `std::copy(first, last, d_first)` for pointers into memory. -/
def std_copy {T : Type} [Element T] (first last d_first : Nat) : M T Nat :=
  std_copy.loop (last - first) first last d_first

/-- Source: `std::copy(list.begin(), list.end(), d_first)` for a source that lives
outside the modelled memory (the backing array of an initializer list): the
items are given as a list. -/
def std_copy_list {T : Type} [Element T] : List T → Nat → M T Nat
  | [], d_first => pure d_first
  | x :: rest, d_first => do
    write d_first x
    std_copy_list rest (d_first + 1)

/-- Source: `Arr(const Arr& other)` -/
def copy_ctor {T : Type} [Element T] (other : Arr) : M T Arr := do
  let this ← ctor_impl other.size_
  let _ ← std_copy other.arr_ (other.arr_ + this.size_) this.arr_
  pure this

/-- Source: `Arr(Arr&& other) noexcept : Arr() { swap(*this, other); }`: the new
object and the source afterwards. -/
def move_ctor {T : Type} (other : Arr) : M T (Arr × Arr) :=
  pure (swap mk_empty other)

/-- Source: `Arr(std::initializer_list<value_type> list)` -/
def list_ctor {T : Type} [Element T] (list : List T) : M T Arr := do
  let this ← ctor_impl list.length
  let _ ← std_copy_list list this.arr_
  pure this

/-- Source: `operator=(const Arr& rhs)`: `Arr temp(rhs); swap(*this, temp); return *this;`
and the destructor of `temp` when the scope is left.  Returns the target
afterwards. -/
def copy_assign {T : Type} [Element T] (this rhs : Arr) : M T Arr := do
  let temp ← copy_ctor rhs
  let (this, temp) := swap this temp
  dtor_impl temp
  pure this

/-- Source: `operator=(Arr&& rhs) noexcept`: `swap(*this, rhs); return *this;`.
Returns the target and the source afterwards. -/
def move_assign {T : Type} (this rhs : Arr) : M T (Arr × Arr) :=
  pure (swap this rhs)

/-- Source: `operator=(std::initializer_list<value_type> list)` -/
def list_assign {T : Type} [Element T] (this : Arr) (list : List T) : M T Arr := do
  let this ←
    if this.size_ ≠ list.length then realloc_to_size_empty this list.length
    else do
      destroy_range this.begin_ this.end_
      pure this
  let _ ← std_copy_list list this.arr_
  pure this

/-- The loop of `std::equal(first1, last1, first2)`:
`for (; first1 != last1; ++first1, ++first2) if (!(*first1 == *first2)) return false;`
then `return true`. -/
def std_equal.loop {T : Type} [BEq T] : Nat → Nat → Nat → Nat → M T Bool
  | 0, first1, last1, _ => if first1 ≠ last1 then raise .undefined else pure true
  | k + 1, first1, last1, first2 =>
    if first1 ≠ last1 then do
      let x ← read first1
      let y ← read first2
      if !(x == y) then pure false
      else std_equal.loop k (first1 + 1) last1 (first2 + 1)
    else pure true

/-- Source: `std::equal(first1, last1, first2)` -/
def std_equal {T : Type} [BEq T] (first1 last1 first2 : Nat) : M T Bool :=
  std_equal.loop (last1 - first1) first1 last1 first2

/-- Source: `operator==(const Arr& lhs, const Arr& rhs)` -/
def op_eq {T : Type} [BEq T] (lhs rhs : Arr) : M T Bool :=
  if lhs.size = rhs.size then std_equal lhs.begin_ lhs.end_ rhs.begin_
  else pure false

/-- Source: `operator!=`: `!(lhs == rhs)` -/
def op_ne {T : Type} [BEq T] (lhs rhs : Arr) : M T Bool := do
  let r ← op_eq lhs rhs
  pure (!r)

/-- The loop of `std::lexicographical_compare(first1, last1, first2, last2)`:
```
for (; (first1 != last1) && (first2 != last2); ++first1, (void) ++first2) {
    if (*first1 < *first2) return true;
    if (*first2 < *first1) return false;
}
return (first1 == last1) && (first2 != last2);
```
-/
def std_lexicographical_compare.loop {T : Type} [LT T] [DecidableRel (α := T) (· < ·)] :
    Nat → Nat → Nat → Nat → Nat → M T Bool
  | 0, first1, last1, first2, last2 =>
    if first1 ≠ last1 ∧ first2 ≠ last2 then raise .undefined
    else pure (decide (first1 = last1) && decide (first2 ≠ last2))
  | k + 1, first1, last1, first2, last2 =>
    if first1 ≠ last1 ∧ first2 ≠ last2 then do
      let x ← read first1
      let y ← read first2
      if x < y then pure true
      else if y < x then pure false
      else std_lexicographical_compare.loop k (first1 + 1) last1 (first2 + 1) last2
    else pure (decide (first1 = last1) && decide (first2 ≠ last2))

/-- Source: `std::lexicographical_compare(first1, last1, first2, last2)` -/
def std_lexicographical_compare {T : Type} [LT T] [DecidableRel (α := T) (· < ·)]
    (first1 last1 first2 last2 : Nat) : M T Bool :=
  std_lexicographical_compare.loop (last1 - first1) first1 last1 first2 last2

/-- Source: `operator<(const Arr& lhs, const Arr& rhs)` -/
def op_lt {T : Type} [LT T] [DecidableRel (α := T) (· < ·)] (lhs rhs : Arr) : M T Bool :=
  std_lexicographical_compare lhs.begin_ lhs.end_ rhs.begin_ rhs.end_

/-- Source: `operator>`: `rhs < lhs` -/
def op_gt {T : Type} [LT T] [DecidableRel (α := T) (· < ·)] (lhs rhs : Arr) : M T Bool :=
  op_lt rhs lhs

/-- Source: `operator<=`: `!(rhs < lhs)` -/
def op_le {T : Type} [LT T] [DecidableRel (α := T) (· < ·)] (lhs rhs : Arr) : M T Bool := do
  let r ← op_lt rhs lhs
  pure (!r)

/-- Source: `operator>=`: `!(lhs < rhs)` -/
def op_ge {T : Type} [LT T] [DecidableRel (α := T) (· < ·)] (lhs rhs : Arr) : M T Bool := do
  let r ← op_lt lhs rhs
  pure (!r)

/-- The loop of `operator<<`:
```
for (const_iterator itr = arr.begin();;) {
    os << *itr;
    if (++itr == arr.end()) break;
    os << ", ";
}
```
The stream is the text written so far. -/
def print.loop {T : Type} [ToString T] : Nat → Nat → Nat → String → M T String
  | 0, itr, last, os => do
    let v ← read itr
    let os := os ++ toString v
    let itr := itr + 1
    if itr = last then pure os
    else raise .undefined
  | k + 1, itr, last, os => do
    let v ← read itr
    let os := os ++ toString v
    let itr := itr + 1
    if itr = last then pure os
    else print.loop k itr last (os ++ ", ")

/-- Source: `operator<<(std::ostream& os, const Arr& arr)`: the text of the stream
afterwards. -/
def print {T : Type} [ToString T] (os : String) (arr : Arr) : M T String := do
  let os := os ++ "["
  let os ←
    if !arr.empty then print.loop (arr.end_ - arr.begin_) arr.begin_ arr.end_ os
    else pure os
  pure (os ++ "]")

/-- The loop of `std::fill(first, last, value)`:
`for (; first != last; ++first) *first = value;`. -/
def std_fill.loop {T : Type} [Element T] : Nat → Nat → Nat → T → M T Unit
  | 0, first, last, _ => if first ≠ last then raise .undefined else pure ()
  | k + 1, first, last, value =>
    if first ≠ last then do
      write first value
      std_fill.loop k (first + 1) last value
    else pure ()

/-- Source: `std::fill(first, last, value)` for pointers into memory. -/
def std_fill {T : Type} [Element T] (first last : Nat) (value : T) : M T Unit :=
  std_fill.loop (last - first) first last value

/-- The loop of `construct_range` without construction parameters:
`for (; first != last; ++first) construct(alloc_, first.ptr_);`. -/
def construct_range.loop {T : Type} [Inhabited T] : Nat → Nat → Nat → M T Unit
  | 0, first, last => if first ≠ last then raise .undefined else pure ()
  | k + 1, first, last =>
    if first ≠ last then do
      construct first
      construct_range.loop k (first + 1) last
    else pure ()

/-- Source: `construct_range(iterator first, iterator last)` -/
def construct_range {T : Type} [Inhabited T] (first last : Nat) : M T Unit :=
  construct_range.loop (last - first) first last

/-- Source: `explicit Arr(size_type size)` for an element type that is not default
constructible: `ctor_impl(size);`. -/
def size_ctor_raw {T : Type} (size : Nat) : M T Arr :=
  ctor_impl size

/-- Source: `explicit Arr(size_type size)` for a default constructible element type:
`ctor_impl(size); construct_range(begin(), end());`. -/
def size_ctor {T : Type} [Inhabited T] (size : Nat) : M T Arr := do
  let this ← ctor_impl size
  construct_range this.begin_ this.end_
  pure this

/-- Source: `Arr(size_type size, const_reference value)` -/
def fill_ctor {T : Type} [Element T] (size : Nat) (value : T) : M T Arr := do
  let this ← ctor_impl size
  std_fill this.arr_ (this.arr_ + this.size_) value
  pure this

/-- Source: `~Arr() { dtor_impl(); }` -/
def dtor {T : Type} (this : Arr) : M T Unit :=
  dtor_impl this

/-- Source: `assign(size_type n, const_reference value)` -/
def fill_assign {T : Type} [Element T] (this : Arr) (n : Nat) (value : T) : M T Arr := do
  let this ←
    if this.size_ ≠ n then realloc_to_size_empty this n
    else do
      destroy_range this.begin_ this.end_
      pure this
  std_fill this.arr_ (this.arr_ + this.size_) value
  pure this

/-- Source: `assign_range(Iter_ first, Iter_ last, std::forward_iterator_tag)`.  The
source range lies outside the modelled memory and is given by its items;
`std::distance(first, last)` is their number. -/
def assign_range_forward {T : Type} [Element T] (this : Arr) (src : List T) : M T Arr := do
  let distance := src.length
  let this ←
    if this.size_ ≠ distance then realloc_to_size_empty this distance
    else do
      destroy_range this.begin_ this.end_
      pure this
  let _ ← std_copy_list src this.arr_
  pure this

/-- The first loop of `assign_range(Iter_, Iter_, std::input_iterator_tag)`:
`for (; first != last && curr != end(); ++first, (void)++curr) *curr = *first;`.
The source is the list of the items not yet read (`first != last` says that it
is not empty); the result is the source and `curr` when the loop is left. -/
def assign_range_input.loop {T : Type} [Element T] : List T → Nat → Nat → M T (List T × Nat)
  | [], curr, _ => pure ([], curr)
  | x :: rest, curr, last =>
    if curr ≠ last then do
      write curr x
      assign_range_input.loop rest (curr + 1) last
    else pure (x :: rest, curr)

/-- The last loop of `assign_range(Iter_, Iter_, std::input_iterator_tag)`:
`for (; first != last; ++first) { /* emplace_back(*first); */ }`, which reads
the source to its end and does nothing with the items. -/
def assign_range_input.drain {T : Type} : List T → List T
  | [] => []
  | _ :: rest => assign_range_input.drain rest

/-- Source: `assign_range(Iter_ first, Iter_ last, std::input_iterator_tag)`: the
object afterwards and what is left of the source. -/
def assign_range_input {T : Type} [Element T] (this : Arr) (src : List T) : M T (Arr × List T) := do
  let curr := this.begin_
  let (first, curr) ← assign_range_input.loop src curr this.end_
  destroy_range curr this.end_
  let first := assign_range_input.drain first
  pure (this, first)

/-- Source: `assign(Iter_ first, Iter_ last)`:
`assign_range(first, last, detail::IterCategory<Iter_> {});`. -/
def assign {T : Type} [Element T] (this : Arr) (cat : IterCategory) (src : List T) : M T Arr :=
  match cat with
  | .input => do
    let r ← assign_range_input this src
    pure r.1
  | .forward => assign_range_forward this src

/-- Source: `assign(std::initializer_list<value_type> list)`:
`assign_range(list.begin(), list.end(), std::random_access_iterator_tag {});`,
which selects the overload for `std::forward_iterator_tag`. -/
def assign_list {T : Type} [Element T] (this : Arr) (list : List T) : M T Arr :=
  assign_range_forward this list

/-- Source: `Arr(Iter_ first, Iter_ last)`, whose body is
`assign_range(first, last, detail::IterCategory<Iter_> {});`.  The constructor
has no member initialisers, so `size_` and `arr_` are not initialised when the
body runs: `this` stands for whatever the two members hold then. -/
def range_ctor {T : Type} [Element T] (this : Arr) (cat : IterCategory) (src : List T) : M T Arr :=
  match cat with
  | .input => do
    let r ← assign_range_input this src
    pure r.1
  | .forward => assign_range_forward this src

/-- Source: `begin()` as an iterator: `iterator(&arr_[0])`. -/
def it_begin (a : Arr) : Iter := ⟨((a.arr_ + 0 : Nat) : Int)⟩

/-- Source: `end()` as an iterator: `iterator(&arr_[size_])`. -/
def it_end (a : Arr) : Iter := ⟨((a.arr_ + a.size_ : Nat) : Int)⟩

/-- Source: `cbegin()`: `return begin();`. -/
def cbegin (a : Arr) : Iter := a.it_begin

/-- Source: `cend()`: `return end();`. -/
def cend (a : Arr) : Iter := a.it_end

/-- Source: `rbegin()`: `reverse_iterator(end())`. -/
def rbegin (a : Arr) : RevIter := ⟨a.it_end⟩

/-- Source: `rend()`: `reverse_iterator(begin())`. -/
def rend (a : Arr) : RevIter := ⟨a.it_begin⟩

/-- A front-to-back traversal by a caller:
`for (it = first; it != last; ++it) out.push_back(*it);`, with a bound on the
number of iterations. -/
def traverse.loop {T : Type} : Nat → Iter → Iter → List T → M T (List T)
  | 0, it, last, out => if Iter.op_ne it last then raise .undefined else pure out
  | k + 1, it, last, out =>
    if Iter.op_ne it last then do
      let v ← it.deref
      traverse.loop k it.pre_inc last (out ++ [v])
    else pure out

/-- The traversal of a container from `begin()` to `end()`. -/
def traverse {T : Type} (a : Arr) : M T (List T) :=
  traverse.loop a.size a.it_begin a.it_end []

/-- The same traversal with reverse iterators:
`for (it = first; it != last; ++it) out.push_back(*it);`. -/
def rtraverse.loop {T : Type} : Nat → RevIter → RevIter → List T → M T (List T)
  | 0, it, last, out => if RevIter.op_ne it last then raise .undefined else pure out
  | k + 1, it, last, out =>
    if RevIter.op_ne it last then do
      let v ← it.deref
      rtraverse.loop k it.pre_inc last (out ++ [v])
    else pure out

/-- The traversal of a container from `rbegin()` to `rend()`. -/
def rtraverse {T : Type} (a : Arr) : M T (List T) :=
  rtraverse.loop a.size a.rbegin a.rend []

/-- The cells `[arr_, arr_ + size_)` of a container, in order. -/
def cells {T : Type} (w : World T) (a : Arr) : List (Cell T) :=
  (List.range a.size_).map fun i => w.mem (a.arr_ + i)

/-- The container holds exactly the sequence `xs`: its size is the length of
`xs` and its `i`-th cell holds the live object `xs[i]`. -/
def Holds {T : Type} (w : World T) (a : Arr) (xs : List T) : Prop :=
  a.cells w = xs.map Cell.live

instance {T : Type} [DecidableEq T] (w : World T) (a : Arr) (xs : List T) :
    Decidable (Holds w a xs) := by
  unfold Holds; infer_instance

/-- The container owns its storage: its block is one of the allocated blocks,
or it is the empty container without storage. -/
def Owns {T : Type} (w : World T) (a : Arr) : Prop :=
  (a.arr_, a.size_) ∈ w.blocks ∨ a = mk_empty

instance {T : Type} (w : World T) (a : Arr) : Decidable (Owns w a) := by
  unfold Owns; infer_instance

/-- The storage ranges of two containers do not overlap. -/
def Apart (a b : Arr) : Prop :=
  a.arr_ + a.size_ ≤ b.arr_ ∨ b.arr_ + b.size_ ≤ a.arr_

instance (a b : Arr) : Decidable (Apart a b) := by
  unfold Apart; infer_instance

end Arr

/-- The lexicographic order in the words of the specification: at the first
index where the two sequences differ the element of `xs` is less than that of
`ys`, or they do not differ within the common prefix and `xs` is strictly
shorter than `ys`. -/
def LexLess {T : Type} [LT T] (xs ys : List T) : Prop :=
  (∃ (i : Nat) (x y : T), xs[i]? = some x ∧ ys[i]? = some y ∧ x ≠ y ∧
      (∀ j, j < i → xs[j]? = ys[j]?) ∧ x < y) ∨
  (xs.length < ys.length ∧ ∀ j, j < xs.length → xs[j]? = ys[j]?)

/-- The cell at `p` can be assigned to: it is allocated, and if it holds no
object the element type is an implicit-lifetime type. -/
def Writable {T : Type} [Element T] (w : World T) (p : Nat) : Prop :=
  w.mem p ≠ .unalloc ∧ (w.mem p = .raw → Element.implicit_lifetime T = true)

/-- The world before anything was allocated: no cell is allocated, `allocate`
never throws. -/
def World.init (T : Type) : World T :=
  { mem := fun _ => .unalloc, next := 0, blocks := [], script := [], trace := [] }

/-- A well-formed allocator state: every allocated block lies at or below
`next`, so that a block handed out later is disjoint from it. -/
def World.WF {T : Type} (w : World T) : Prop :=
  ∀ b ∈ w.blocks, b.1 + b.2 ≤ w.next

instance {T : Type} (w : World T) : Decidable w.WF := by
  unfold World.WF; infer_instance

/-- The world after the items of `xs` were assigned to the cells
`[p, p + xs.length)`. -/
def World.after_store {T : Type} (w : World T) (p : Nat) (xs : List T) : World T :=
  { w with
    mem := fun i =>
      if p ≤ i then
        match xs[i - p]? with
        | some v => .live v
        | none => w.mem i
      else w.mem i }

/-- The world after `destroy` was called on the cells `p`, `p + 1`, ...,
`p + n - 1`, in this order. -/
def World.after_destroy {T : Type} (w : World T) (p n : Nat) : World T :=
  { w with
    mem := fun i => if p ≤ i ∧ i < p + n then .raw else w.mem i
    trace := w.trace ++ (List.range n).map fun i => Event.destroy (p + i) }

/-- The world after a successful `allocate(n)`. -/
def World.after_allocate {T : Type} (w : World T) (n : Nat) : World T :=
  { mem := fun i => if w.next + 1 ≤ i ∧ i < w.next + 1 + n then .raw else w.mem i
    next := w.next + 1 + n
    blocks := (w.next + 1, n) :: w.blocks
    script := w.script.tail
    trace := w.trace ++ [.allocate n] }

/-- The world after `deallocate(p, n)` released the block `(p, n)`. -/
def World.after_deallocate {T : Type} (w : World T) (p n : Nat) : World T :=
  { w with
    mem := fun i => if p ≤ i ∧ i < p + n then .unalloc else w.mem i
    blocks := w.blocks.erase (p, n)
    trace := w.trace ++ [.deallocate p n] }

/-- The world after the body of the destructor ran for a container with
storage `p` and size `n`: the cells were destroyed in order, then the block was
released (for the empty container without storage `deallocate(nullptr, 0)` is
only logged). -/
def World.after_dtor {T : Type} (w : World T) (p n : Nat) : World T :=
  if (p, n) ∈ w.blocks then (w.after_destroy p n).after_deallocate p n
  else { w.after_destroy p n with trace := (w.after_destroy p n).trace ++ [.deallocate p n] }

/-- The world after `Arr<int> p{1, 2}; Arr<int> q{1, 3}; Arr<int> r{1, 2, 3};`
in the initial world: `p` at address 1, `q` at address 4, `r` at address 7. -/
def sample_world : World Int :=
  { mem := fun i =>
      match i with
      | 1 => .live 1 | 2 => .live 2
      | 4 => .live 1 | 5 => .live 3
      | 7 => .live 1 | 8 => .live 2 | 9 => .live 3
      | _ => .unalloc
    next := 10
    blocks := [(7, 3), (4, 2), (1, 2)]
    script := []
    trace := [.allocate 2, .allocate 2, .allocate 3] }

/-- The sample world with an allocator that throws at its next call. -/
def sample_world_failing : World Int :=
  { sample_world with script := [true] }

/-- The object `p` of `sample_world`, holding `{1, 2}`. -/
def arr_1_2 : Arr := ⟨2, 1⟩

/-- The object `q` of `sample_world`, holding `{1, 3}`. -/
def arr_1_3 : Arr := ⟨2, 4⟩

/-- The object `r` of `sample_world`, holding `{1, 2, 3}`. -/
def arr_1_2_3 : Arr := ⟨3, 7⟩

/-! ## Basic facts about the monad and about `Holds` -/

@[simp] theorem M.pure_apply {T α : Type} (a : α) (w : World T) :
    (pure a : M T α) w = (.ok a, w) := rfl

@[simp] theorem M.bind_apply {T α β : Type} (m : M T α) (f : α → M T β) (w : World T) :
    (m >>= f) w = M.bind m f w := rfl

theorem M.bind_ok {T α β : Type} {m : M T α} {f : α → M T β} {w w1 : World T} {a : α}
    (h : m w = (.ok a, w1)) : M.bind m f w = f a w1 := by
  simp [M.bind, h]

theorem M.bind_error {T α β : Type} {m : M T α} {f : α → M T β} {w w1 : World T} {e : Exn}
    (h : m w = (.error e, w1)) : M.bind m f w = (.error e, w1) := by
  simp [M.bind, h]

theorem M.seq_ok {T α β : Type} {m : M T α} {f : α → M T β} {w w1 : World T} {a : α}
    (h : m w = (.ok a, w1)) : (m >>= f) w = f a w1 := M.bind_ok h

theorem M.seq_error {T α β : Type} {m : M T α} {f : α → M T β} {w w1 : World T} {e : Exn}
    (h : m w = (.error e, w1)) : (m >>= f) w = (.error e, w1) := M.bind_error h

namespace Arr

theorem holds_iff {T : Type} (w : World T) (a : Arr) (xs : List T) :
    Holds w a xs ↔
      a.size_ = xs.length ∧ ∀ i (h : i < xs.length), w.mem (a.arr_ + i) = .live xs[i] := by
  unfold Holds cells
  constructor
  · intro h
    have hlen : a.size_ = xs.length := by
      have := congrArg List.length h
      simpa using this
    refine ⟨hlen, fun i hi => ?_⟩
    have h1 : i < ((List.range a.size_).map fun i => w.mem (a.arr_ + i)).length := by
      simp [hlen, hi]
    have := List.getElem_of_eq h h1
    simpa using this
  · rintro ⟨hlen, hall⟩
    apply List.ext_getElem
    · simp [hlen]
    · intro i h1 h2
      have hi : i < xs.length := by simpa using h2
      simp [hall i hi]

theorem Holds.size_eq {T : Type} {w : World T} {a : Arr} {xs : List T} (h : Holds w a xs) :
    a.size_ = xs.length := ((holds_iff w a xs).1 h).1

theorem Holds.mem_eq {T : Type} {w : World T} {a : Arr} {xs : List T} (h : Holds w a xs)
    (i : Nat) (hi : i < xs.length) : w.mem (a.arr_ + i) = .live xs[i] :=
  ((holds_iff w a xs).1 h).2 i hi

theorem read_live {T : Type} {w : World T} {p : Nat} {v : T} (h : w.mem p = .live v) :
    read p w = (.ok v, w) := by
  simp [read, h]

/-! ## Element access -/

/-- C1: the bounds-checked accessor `at(i)`, in both overloads, fails with the
out-of-range error exactly when `i >= size()`; for such an index it returns no
value, and the world (hence every container in it) is the one before the call. -/
theorem at_out_of_range_iff {T : Type} (a : Arr) (i : Nat) (w : World T) :
    ((a.at i w).1 = .error .out_of_range ↔ i ≥ a.size) ∧
    ((a.at_mut i w).1 = .error .out_of_range ↔ i ≥ a.size) ∧
    (i ≥ a.size →
      a.at i w = (.error .out_of_range, w) ∧ a.at_mut i w = (.error .out_of_range, w) ∧
      (∀ p, (a.at i w).1 ≠ .ok p) ∧ (∀ p, (a.at_mut i w).1 ≠ .ok p)) := by
  by_cases h : i ≥ a.size_
  · simp [Arr.at, at_mut, size, h, throw_out_of_range, raise]
  · simp [Arr.at, at_mut, size, h]

/-- C2: for an index `i < size()`, `at(i)` and `operator[]` return the same
reference, in the mutable and in the read-only overload, and the cell it
designates holds the `i`-th element of the stored sequence. -/
theorem at_eq_subscript {T : Type} (a : Arr) (i : Nat) (w : World T) (xs : List T)
    (hw : Holds w a xs) (hi : i < a.size) :
    ∃ h : i < xs.length,
      a.at i w = (.ok (a.subscript i), w) ∧
      a.at_mut i w = (.ok (a.subscript_mut i), w) ∧
      a.subscript_mut i = a.subscript i ∧
      read (a.subscript i) w = (.ok xs[i], w) := by
  have hlen := hw.size_eq
  have hix : i < xs.length := by simpa [size, hlen] using hi
  have hn : ¬ i ≥ a.size_ := by simpa [size] using hi
  refine ⟨hix, ?_, ?_, rfl, ?_⟩
  · simp [Arr.at, hn, subscript]
  · simp [Arr.at, at_mut, hn, subscript_mut]
  · exact read_live (hw.mem_eq i hix)

theorem at_eq_subscript_witness :
    Holds sample_world arr_1_2_3 [1, 2, 3] ∧ 1 < arr_1_2_3.size ∧
    ∃ h : 1 < [(1 : Int), 2, 3].length,
      arr_1_2_3.at 1 sample_world = (.ok (arr_1_2_3.subscript 1), sample_world) ∧
      arr_1_2_3.at_mut 1 sample_world = (.ok (arr_1_2_3.subscript_mut 1), sample_world) ∧
      arr_1_2_3.subscript_mut 1 = arr_1_2_3.subscript 1 ∧
      read (arr_1_2_3.subscript 1) sample_world = (.ok [(1 : Int), 2, 3][1], sample_world) :=
  ⟨by decide, by decide,
    at_eq_subscript arr_1_2_3 1 sample_world [1, 2, 3] (by decide) (by decide)⟩

theorem read_ok_iff {T : Type} (w w1 : World T) (p : Nat) (v : T) :
    read p w = (.ok v, w1) ↔ w.mem p = .live v ∧ w1 = w := by
  unfold read
  cases h : w.mem p <;> simp [eq_comm]

theorem Holds.live {T : Type} {w : World T} {a : Arr} {xs : List T} (h : Holds w a xs)
    (i : Nat) (hi : i < a.size_) : ∃ v, w.mem (a.arr_ + i) = .live v :=
  ⟨_, h.mem_eq i (h.size_eq ▸ hi)⟩

/-! ## Equality -/

theorem std_equal_loop_spec {T : Type} [BEq T] (w : World T) :
    ∀ (k : Nat) (f1 f2 : Nat),
      (∀ i, i < k → ∃ x, w.mem (f1 + i) = .live x) →
      (∀ i, i < k → ∃ y, w.mem (f2 + i) = .live y) →
      ∃ r, std_equal.loop k f1 (f1 + k) f2 w = (.ok r, w) ∧
        (r = true ↔ ∀ i, i < k →
          ∃ x y, w.mem (f1 + i) = .live x ∧ w.mem (f2 + i) = .live y ∧ (x == y) = true) := by
  intro k
  induction k with
  | zero =>
    intro f1 f2 _ _
    exact ⟨true, by simp [std_equal.loop], by simp⟩
  | succ k ih =>
    intro f1 f2 h1 h2
    obtain ⟨x0, hx0⟩ := h1 0 (Nat.succ_pos k)
    obtain ⟨y0, hy0⟩ := h2 0 (Nat.succ_pos k)
    have hne : f1 ≠ f1 + (k + 1) := by omega
    have hx0r : read f1 w = (.ok x0, w) := read_live (by simpa using hx0)
    have hy0r : read f2 w = (.ok y0, w) := read_live (by simpa using hy0)
    by_cases hxy : (x0 == y0) = true
    · obtain ⟨r, hr, hiff⟩ := ih (f1 + 1) (f2 + 1)
        (fun i hi => by have := h1 (i + 1) (by omega); rwa [show f1 + 1 + i = f1 + (i + 1) by omega])
        (fun i hi => by have := h2 (i + 1) (by omega); rwa [show f2 + 1 + i = f2 + (i + 1) by omega])
      refine ⟨r, ?_, ?_⟩
      · rw [show f1 + 1 + k = f1 + (k + 1) by omega] at hr
        simp only [std_equal.loop, ne_eq, M.bind_apply]
        rw [if_pos hne]
        simp [M.bind, hx0r, hy0r, hxy, hr]
      · rw [hiff]
        constructor
        · intro h i hi
          cases i with
          | zero => exact ⟨x0, y0, by simpa using hx0, by simpa using hy0, hxy⟩
          | succ j =>
            have := h j (by omega)
            rwa [show f1 + 1 + j = f1 + (j + 1) by omega,
              show f2 + 1 + j = f2 + (j + 1) by omega] at this
        · intro h i hi
          have := h (i + 1) (by omega)
          rwa [show f1 + 1 + i = f1 + (i + 1) by omega,
            show f2 + 1 + i = f2 + (i + 1) by omega]
    · refine ⟨false, ?_, ?_⟩
      · simp only [std_equal.loop, ne_eq, M.bind_apply]
        rw [if_pos hne]
        simp [M.bind, hx0r, hy0r, hxy]
      · simp only [Bool.false_eq_true, false_iff, not_forall]
        refine ⟨0, Nat.succ_pos k, ?_⟩
        rintro ⟨x, y, hx, hy, hxy1⟩
        rw [hx0] at hx
        rw [hy0] at hy
        cases hx
        cases hy
        exact hxy hxy1

/-- C3: for containers whose elements are live, `a == b` returns a value, which
is `true` exactly when the sizes are equal and `a[i] == b[i]` for every
`i < a.size()`; and `a != b` returns its negation.  Neither changes the world. -/
theorem op_eq_iff {T : Type} [BEq T] (w : World T) (a b : Arr) (xs ys : List T)
    (ha : Holds w a xs) (hb : Holds w b ys) :
    ∃ r, op_eq a b w = (.ok r, w) ∧ op_ne a b w = (.ok (!r), w) ∧
      (r = true ↔ a.size = b.size ∧ ∀ i, i < a.size →
        ∃ x y, read (a.subscript i) w = (.ok x, w) ∧ read (b.subscript i) w = (.ok y, w) ∧
          (x == y) = true) := by
  by_cases hs : a.size_ = b.size_
  · obtain ⟨r, hr, hiff⟩ := std_equal_loop_spec w a.size_ a.arr_ b.arr_
      (fun i hi => ha.live i hi) (fun i hi => hb.live i (hs ▸ hi))
    have h1 : op_eq a b w = (.ok r, w) := by
      simp [op_eq, size, hs, std_equal, begin_, end_]
      rw [← hs]; exact hr
    refine ⟨r, h1, ?_, ?_⟩
    · simp [op_ne, M.bind, h1]
    · simp only [size, subscript, read_ok_iff, and_true, hs, true_and]
      rw [hiff, hs]
  · refine ⟨false, ?_, ?_, ?_⟩
    · simp [op_eq, size, hs]
    · simp [op_ne, op_eq, size, hs, M.bind]
    · simp [size, hs]

theorem op_eq_iff_witness :
    Holds sample_world arr_1_2 [1, 2] ∧ Holds sample_world arr_1_3 [1, 3] ∧
    ∃ r, op_eq arr_1_2 arr_1_3 sample_world = (.ok r, sample_world) ∧
      op_ne arr_1_2 arr_1_3 sample_world = (.ok (!r), sample_world) ∧
      (r = true ↔ arr_1_2.size = arr_1_3.size ∧ ∀ i, i < arr_1_2.size →
        ∃ x y, read (arr_1_2.subscript i) sample_world = (.ok x, sample_world) ∧
          read (arr_1_3.subscript i) sample_world = (.ok y, sample_world) ∧
          (x == y) = true) :=
  ⟨by decide, by decide,
    op_eq_iff sample_world arr_1_2 arr_1_3 [1, 2] [1, 3] (by decide) (by decide)⟩


/-! ## Lexicographic comparison -/

theorem lexLess_nil_left {T : Type} [LT T] (ys : List T) :
    LexLess ([] : List T) ys ↔ 0 < ys.length := by
  simp [LexLess]

theorem lexLess_nil_right {T : Type} [LT T] (xs : List T) :
    ¬ LexLess xs ([] : List T) := by
  simp [LexLess]

theorem lexLess_cons {T : Type} [LinearOrder T] (x y : T) (xs ys : List T) :
    LexLess (x :: xs) (y :: ys) ↔ x < y ∨ (x = y ∧ LexLess xs ys) := by
  constructor
  · rintro (⟨i, a, b, ha, hb, hne, hpre, hlt⟩ | ⟨hlen, hpre⟩)
    · cases i with
      | zero =>
        simp at ha hb
        subst ha hb
        exact Or.inl hlt
      | succ j =>
        have h0 := hpre 0 (Nat.succ_pos j)
        simp at h0
        refine Or.inr ⟨h0, Or.inl ⟨j, a, b, by simpa using ha, by simpa using hb, hne, ?_, hlt⟩⟩
        intro k hk
        have := hpre (k + 1) (by omega)
        simpa using this
    · have h0 := hpre 0 (by simp)
      simp at h0
      refine Or.inr ⟨h0, Or.inr ⟨by simpa using hlen, ?_⟩⟩
      intro k hk
      have := hpre (k + 1) (by simp; omega)
      simpa using this
  · rintro (hlt | ⟨rfl, ⟨i, a, b, ha, hb, hne, hpre, hlt⟩ | ⟨hlen, hpre⟩⟩)
    · exact Or.inl ⟨0, x, y, by simp, by simp, ne_of_lt hlt, by simp, hlt⟩
    · refine Or.inl ⟨i + 1, a, b, by simpa using ha, by simpa using hb, hne, ?_, hlt⟩
      intro k hk
      cases k with
      | zero => simp
      | succ k => simpa using hpre k (by omega)
    · refine Or.inr ⟨by simpa using hlen, ?_⟩
      intro k hk
      cases k with
      | zero => simp
      | succ k => simpa using hpre k (by simpa using hk)

theorem lex_loop_spec {T : Type} [LinearOrder T] (w : World T) :
    ∀ (xs ys : List T) (f1 f2 : Nat),
      (∀ i (h : i < xs.length), w.mem (f1 + i) = .live xs[i]) →
      (∀ i (h : i < ys.length), w.mem (f2 + i) = .live ys[i]) →
      ∃ r, std_lexicographical_compare.loop xs.length f1 (f1 + xs.length) f2
            (f2 + ys.length) w = (.ok r, w) ∧ (r = true ↔ LexLess xs ys) := by
  intro xs
  induction xs with
  | nil =>
    intro ys f1 f2 _ _
    refine ⟨decide (0 < ys.length), ?_, ?_⟩
    · simp [std_lexicographical_compare.loop, Nat.pos_iff_ne_zero]
    · simp [lexLess_nil_left]
  | cons x xs ih =>
    intro ys f1 f2 h1 h2
    have hne : f1 ≠ f1 + (xs.length + 1) := by omega
    cases ys with
    | nil =>
      refine ⟨false, ?_, by simpa using lexLess_nil_right (x :: xs)⟩
      simp [std_lexicographical_compare.loop]
    | cons y ys =>
      have hx : read f1 w = (.ok x, w) := read_live (by simpa using h1 0 (by simp))
      have hy : read f2 w = (.ok y, w) := read_live (by simpa using h2 0 (by simp))
      have hne2 : f2 ≠ f2 + (ys.length + 1) := by omega
      have hstep : std_lexicographical_compare.loop (x :: xs).length f1
          (f1 + (x :: xs).length) f2 (f2 + (y :: ys).length) w =
          if x < y then (.ok true, w) else if y < x then (.ok false, w)
          else std_lexicographical_compare.loop xs.length (f1 + 1) (f1 + 1 + xs.length)
            (f2 + 1) (f2 + 1 + ys.length) w := by
        simp only [List.length_cons, std_lexicographical_compare.loop, ne_eq, M.bind_apply]
        rw [if_pos ⟨hne, hne2⟩]
        rw [show f1 + 1 + xs.length = f1 + (xs.length + 1) by omega,
          show f2 + 1 + ys.length = f2 + (ys.length + 1) by omega]
        simp only [M.bind_apply, M.bind, hx, hy, M.pure_apply]
        split_ifs <;> rfl
      rw [hstep, lexLess_cons]
      by_cases hxy : x < y
      · exact ⟨true, by simp [hxy], by simp [hxy]⟩
      · by_cases hyx : y < x
        · refine ⟨false, by simp [hxy, hyx], ?_⟩
          simp [hxy, ne_of_gt hyx]
        · have heq : x = y := le_antisymm (not_lt.1 hyx) (not_lt.1 hxy)
          obtain ⟨r, hr, hiff⟩ := ih ys (f1 + 1) (f2 + 1)
            (fun i hi => by
              have := h1 (i + 1) (by simpa using hi)
              rw [show f1 + 1 + i = f1 + (i + 1) by omega]
              simpa using this)
            (fun i hi => by
              have := h2 (i + 1) (by simpa using hi)
              rw [show f2 + 1 + i = f2 + (i + 1) by omega]
              simpa using this)
          refine ⟨r, by simp [hxy, hyx, hr], ?_⟩
          simp [hxy, heq, hiff]

theorem op_lt_spec {T : Type} [LinearOrder T] (w : World T) (a b : Arr) (xs ys : List T)
    (ha : Holds w a xs) (hb : Holds w b ys) :
    ∃ r, op_lt a b w = (.ok r, w) ∧ (r = true ↔ LexLess xs ys) := by
  have := lex_loop_spec w xs ys a.arr_ b.arr_ (fun i h => ha.mem_eq i h) (fun i h => hb.mem_eq i h)
  simpa [op_lt, std_lexicographical_compare, begin_, end_, ha.size_eq, hb.size_eq] using this

/-- C4: for containers `a`, `b` holding the sequences `xs`, `ys`, `a < b`
returns a value, which is `true` exactly when `xs` is lexicographically less
than `ys` in the sense of `LexLess`; `a > b` is `b < a`, `a <= b` is
`!(b < a)` and `a >= b` is `!(a < b)`; and `{1,2} < {1,2,3}` is true while
`{1,3} < {1,2,3}` is false. -/
theorem op_lt_lexicographic {T : Type} [LinearOrder T] (w : World T) (a b : Arr)
    (xs ys : List T) (ha : Holds w a xs) (hb : Holds w b ys) :
    (∃ r s, op_lt a b w = (.ok r, w) ∧ op_lt b a w = (.ok s, w) ∧
      (r = true ↔ LexLess xs ys) ∧ (s = true ↔ LexLess ys xs) ∧
      op_gt a b w = (.ok s, w) ∧ op_le a b w = (.ok (!s), w) ∧
      op_ge a b w = (.ok (!r), w)) ∧
    op_lt arr_1_2 arr_1_2_3 sample_world = (.ok true, sample_world) ∧
    op_lt arr_1_3 arr_1_2_3 sample_world = (.ok false, sample_world) := by
  obtain ⟨r, hr, hriff⟩ := op_lt_spec w a b xs ys ha hb
  obtain ⟨s, hs, hsiff⟩ := op_lt_spec w b a ys xs hb ha
  refine ⟨⟨r, s, hr, hs, hriff, hsiff, ?_, ?_, ?_⟩, ?_, ?_⟩
  · simpa [op_gt] using hs
  · simp [op_le, M.bind, hs]
  · simp [op_ge, M.bind, hr]
  · rfl
  · rfl

theorem op_lt_lexicographic_witness :
    Holds sample_world arr_1_3 [1, 3] ∧ Holds sample_world arr_1_2_3 [1, 2, 3] ∧
    ((∃ r s, op_lt arr_1_3 arr_1_2_3 sample_world = (.ok r, sample_world) ∧
      op_lt arr_1_2_3 arr_1_3 sample_world = (.ok s, sample_world) ∧
      (r = true ↔ LexLess [(1 : Int), 3] [1, 2, 3]) ∧
      (s = true ↔ LexLess [(1 : Int), 2, 3] [1, 3]) ∧
      op_gt arr_1_3 arr_1_2_3 sample_world = (.ok s, sample_world) ∧
      op_le arr_1_3 arr_1_2_3 sample_world = (.ok (!s), sample_world) ∧
      op_ge arr_1_3 arr_1_2_3 sample_world = (.ok (!r), sample_world)) ∧
    op_lt arr_1_2 arr_1_2_3 sample_world = (.ok true, sample_world) ∧
    op_lt arr_1_3 arr_1_2_3 sample_world = (.ok false, sample_world)) :=
  ⟨by decide, by decide,
    op_lt_lexicographic sample_world arr_1_3 arr_1_2_3 [1, 3] [1, 2, 3] (by decide) (by decide)⟩

/-! ## The allocator and the loops over memory -/

theorem allocate_ok {T : Type} (n : Nat) (w : World T) (h : w.script.head? ≠ some true) :
    allocate n w = (.ok (w.next + 1), w.after_allocate n) := by
  unfold allocate World.after_allocate
  cases hs : w.script with
  | nil => rfl
  | cons b rest =>
    cases b with
    | true => simp [hs] at h
    | false => rfl

theorem allocate_fail {T : Type} (n : Nat) (w : World T) (h : w.script.head? = some true) :
    allocate n w =
      (.error .bad_alloc, { w with script := w.script.tail, trace := w.trace ++ [.allocate n] }) := by
  unfold allocate
  cases hs : w.script with
  | nil => simp [hs] at h
  | cons b rest =>
    cases b with
    | true => rfl
    | false => simp [hs] at h

theorem destroy_ok {T : Type} (p : Nat) (w : World T) (h : w.mem p ≠ .unalloc) :
    destroy p w =
      (.ok (), { w with mem := Function.update w.mem p .raw, trace := w.trace ++ [.destroy p] }) := by
  unfold destroy
  cases hc : w.mem p <;> simp_all

theorem writable_of_live {T : Type} [Element T] {w : World T} {p : Nat} {v : T}
    (h : w.mem p = .live v) : Writable w p := by
  simp [Writable, h]

theorem writable_of_ne_unalloc {T : Type} [Element T] {w : World T} {p : Nat}
    (htriv : Element.implicit_lifetime T = true) (h : w.mem p ≠ .unalloc) : Writable w p :=
  ⟨h, fun _ => htriv⟩

theorem writable_update {T : Type} [Element T] (w : World T) (p q : Nat) (x : T)
    (h : Writable w q) :
    Writable { w with mem := Function.update w.mem p (.live x) } q := by
  by_cases hqp : q = p
  · subst hqp
    simp [Writable]
  · simpa [Writable, Function.update_apply, hqp] using h

theorem write_ok {T : Type} [Element T] (p : Nat) (v : T) (w : World T) (h : Writable w p) :
    write p v w = (.ok (), { w with mem := Function.update w.mem p (.live v) }) := by
  unfold write
  obtain ⟨h1, h2⟩ := h
  cases hc : w.mem p with
  | unalloc => exact absurd hc h1
  | raw => simp [h2 hc]
  | live _ => rfl

theorem destroy_loop_spec {T : Type} :
    ∀ (n p : Nat) (w : World T), (∀ i, i < n → w.mem (p + i) ≠ .unalloc) →
      destroy_range.loop n p (p + n) w = (.ok (), w.after_destroy p n) := by
  intro n
  induction n with
  | zero =>
    intro p w _
    simp only [destroy_range.loop, Nat.add_zero, ne_eq, not_true_eq_false, if_false,
      M.pure_apply, World.after_destroy]
    congr 1
    refine World.ext ?_ rfl rfl rfl (by simp)
    funext i
    have e : ¬ (p ≤ i ∧ i < p) := by omega
    simp [e]
  | succ n ih =>
    intro p w h
    have hne : p ≠ p + (n + 1) := by omega
    have h0 : w.mem p ≠ .unalloc := by simpa using h 0 (Nat.succ_pos n)
    simp only [destroy_range.loop, ne_eq]
    rw [if_pos hne, M.bind_apply, M.bind_ok (destroy_ok p w h0)]
    rw [show p + (n + 1) = p + 1 + n by omega]
    rw [ih (p + 1) _ (fun i hi => by
      have := h (i + 1) (by omega)
      rw [show p + 1 + i = p + (i + 1) by omega]
      simp only [Function.update_apply]
      split_ifs <;> simp_all)]
    congr 1
    refine World.ext ?_ rfl rfl rfl ?_
    · funext i
      simp only [World.after_destroy, Function.update_apply]
      by_cases h1 : i = p
      · subst h1; simp
      · have e : (p + 1 ≤ i ∧ i < p + 1 + n) ↔ (p ≤ i ∧ i < p + (n + 1)) := by omega
        simp [h1, e]
    · simp only [World.after_destroy, List.append_assoc, List.singleton_append]
      congr 1
      rw [List.range_succ_eq_map]
      simp [Function.comp_def, Nat.add_assoc, Nat.add_comm 1]

theorem destroy_range_spec {T : Type} (p n : Nat) (w : World T)
    (h : ∀ i, i < n → w.mem (p + i) ≠ .unalloc) :
    destroy_range p (p + n) w = (.ok (), w.after_destroy p n) := by
  unfold destroy_range
  rw [Nat.add_sub_cancel_left]
  exact destroy_loop_spec n p w h

theorem after_store_cons {T : Type} (w : World T) (p : Nat) (x : T) (xs : List T) :
    World.after_store { w with mem := Function.update w.mem p (.live x) } (p + 1) xs =
      w.after_store p (x :: xs) := by
  refine World.ext ?_ rfl rfl rfl rfl
  funext i
  simp only [World.after_store, Function.update_apply]
  by_cases h1 : i = p
  · subst h1; simp
  · by_cases h2 : p ≤ i
    · have h3 : p + 1 ≤ i := by omega
      obtain ⟨k, rfl⟩ : ∃ k, i = p + 1 + k := ⟨i - (p + 1), by omega⟩
      simp [h1, h2, show p + 1 + k - p = k + 1 by omega]
    · have h3 : ¬ p + 1 ≤ i := by omega
      simp [h1, h2, h3]

theorem after_store_nil {T : Type} (w : World T) (p : Nat) : w.after_store p [] = w := by
  refine World.ext ?_ rfl rfl rfl rfl
  funext i
  simp [World.after_store]

theorem after_store_mem_in {T : Type} (w : World T) (p : Nat) (xs : List T) (i : Nat)
    (h : i < xs.length) : (w.after_store p xs).mem (p + i) = .live xs[i] := by
  simp [World.after_store, h]

theorem after_store_mem_out {T : Type} (w : World T) (p : Nat) (xs : List T) (i : Nat)
    (h : i < p ∨ p + xs.length ≤ i) : (w.after_store p xs).mem i = w.mem i := by
  simp only [World.after_store]
  split_ifs with h1
  · have : xs[i - p]? = none := by
      rw [List.getElem?_eq_none_iff]; omega
    simp [this]
  · rfl

theorem std_copy_list_spec {T : Type} [Element T] :
    ∀ (xs : List T) (p : Nat) (w : World T), (∀ i, i < xs.length → Writable w (p + i)) →
      std_copy_list xs p w = (.ok (p + xs.length), w.after_store p xs) := by
  intro xs
  induction xs with
  | nil =>
    intro p w _
    simp [std_copy_list, after_store_nil]
  | cons x xs ih =>
    intro p w h
    have h0 : Writable w p := by simpa using h 0 (by simp)
    simp only [std_copy_list, M.bind_apply]
    rw [M.bind_ok (write_ok p x w h0)]
    rw [ih (p + 1) _ (fun i hi => by
      have := h (i + 1) (by simpa using hi)
      rw [show p + 1 + i = p + (i + 1) by omega]
      exact writable_update w p _ x this), after_store_cons]
    simp [Nat.add_assoc, Nat.add_comm 1]

theorem std_copy_loop_spec {T : Type} [Element T] :
    ∀ (xs : List T) (src dst : Nat) (w : World T),
      (∀ i (h : i < xs.length), w.mem (src + i) = .live xs[i]) →
      (∀ i, i < xs.length → Writable w (dst + i)) →
      (src + xs.length ≤ dst ∨ dst + xs.length ≤ src) →
      std_copy.loop xs.length src (src + xs.length) dst w =
        (.ok (dst + xs.length), w.after_store dst xs) := by
  intro xs
  induction xs with
  | nil =>
    intro src dst w _ _ _
    simp [std_copy.loop, after_store_nil]
  | cons x xs ih =>
    intro src dst w hs hd hdis
    have hne : src ≠ src + (xs.length + 1) := by omega
    have hx : read src w = (.ok x, w) := read_live (by simpa using hs 0 (by simp))
    have h0 : Writable w dst := by simpa using hd 0 (by simp)
    simp only [List.length_cons] at hdis
    simp only [List.length_cons, std_copy.loop, ne_eq]
    rw [if_pos hne, M.bind_apply, M.bind_ok hx, M.bind_apply, M.bind_ok (write_ok dst x w h0)]
    rw [show src + (xs.length + 1) = src + 1 + xs.length by omega]
    rw [ih (src + 1) (dst + 1) _ ?_ ?_ (by omega), after_store_cons]
    · simp [Nat.add_assoc, Nat.add_comm 1]
    · intro i hi
      have := hs (i + 1) (by simpa using hi)
      simp only [Function.update_apply]
      rw [if_neg (by omega), show src + 1 + i = src + (i + 1) by omega]
      simpa using this
    · intro i hi
      have := hd (i + 1) (by simpa using hi)
      rw [show dst + 1 + i = dst + (i + 1) by omega]
      exact writable_update w dst _ x this

/-! ## Facts about `Holds`, `Owns` and well-formed worlds -/

theorem holds_frame {T : Type} {w w1 : World T} {a : Arr} {xs : List T} (h : Holds w a xs)
    (hm : ∀ i, i < a.size_ → w1.mem (a.arr_ + i) = w.mem (a.arr_ + i)) : Holds w1 a xs := by
  rw [holds_iff] at h ⊢
  refine ⟨h.1, fun i hi => ?_⟩
  rw [hm i (h.1 ▸ hi)]
  exact h.2 i hi

theorem holds_after_store {T : Type} (w : World T) (p : Nat) (xs : List T) :
    Holds (w.after_store p xs) ⟨xs.length, p⟩ xs := by
  rw [holds_iff]
  exact ⟨rfl, fun i hi => after_store_mem_in w p xs i hi⟩

theorem holds_nil_of_size {T : Type} (w : World T) (a : Arr) (h : a.size_ = 0) :
    Holds w a ([] : List T) := by
  rw [holds_iff]
  exact ⟨h, fun i hi => absurd hi (by simp)⟩

theorem owns_fit {T : Type} {w : World T} {a : Arr} (hwf : w.WF) (ho : Owns w a) :
    a.arr_ + a.size_ ≤ w.next := by
  rcases ho with h | h
  · exact hwf _ h
  · subst h; simp [mk_empty]

/-! ## Copy construction -/

theorem ctor_impl_zero {T : Type} (w : World T) :
    ctor_impl 0 w = (.ok ⟨0, 0⟩, w) := by
  simp [ctor_impl, M.bind]

theorem ctor_impl_ok {T : Type} (n : Nat) (w : World T) (hn : n ≠ 0)
    (h : w.script.head? ≠ some true) :
    ctor_impl n w = (.ok ⟨n, w.next + 1⟩, w.after_allocate n) := by
  simp only [ctor_impl, ne_eq, hn, not_false_eq_true, if_true, M.bind_apply]
  rw [M.bind_ok (allocate_ok n w h)]
  rfl

theorem ctor_impl_fail {T : Type} (n : Nat) (w : World T) (hn : n ≠ 0)
    (h : w.script.head? = some true) :
    ctor_impl n w =
      (.error .bad_alloc, { w with script := w.script.tail, trace := w.trace ++ [.allocate n] }) := by
  simp only [ctor_impl, ne_eq, hn, not_false_eq_true, if_true, M.bind_apply]
  rw [M.bind_error (allocate_fail n w h)]

theorem copy_ctor_empty {T : Type} [Element T] (w : World T) (a : Arr) (h : a.size_ = 0) :
    copy_ctor a w = (.ok ⟨0, 0⟩, w) := by
  simp only [copy_ctor, h, M.bind_apply]
  rw [M.bind_ok (ctor_impl_zero w)]
  simp [std_copy, std_copy.loop, M.bind]

theorem copy_ctor_ok {T : Type} [Element T]
    (htriv : Element.implicit_lifetime T = true) (w : World T) (a : Arr) (xs : List T) (ha : Holds w a xs)
    (hfit : a.arr_ + a.size_ ≤ w.next) (hn : a.size_ ≠ 0) (hok : w.script.head? ≠ some true) :
    copy_ctor a w =
      (.ok ⟨a.size_, w.next + 1⟩, (w.after_allocate a.size_).after_store (w.next + 1) xs) := by
  have hlen := ha.size_eq
  simp only [copy_ctor, M.bind_apply]
  rw [M.bind_ok (ctor_impl_ok a.size_ w hn hok)]
  simp only [std_copy, Nat.add_sub_cancel_left]
  rw [hlen] at hfit ⊢
  rw [M.seq_ok (std_copy_loop_spec xs a.arr_ (w.next + 1) (w.after_allocate xs.length) ?_ ?_ ?_)]
  · rfl
  · intro i hi
    have := ha.mem_eq i hi
    simp only [World.after_allocate]
    rw [if_neg (by omega)]
    exact this
  · intro i hi
    refine writable_of_ne_unalloc htriv ?_
    simp only [World.after_allocate]
    rw [if_pos (by omega)]
    simp
  · omega

theorem copy_ctor_fail {T : Type} [Element T] (w : World T) (a : Arr) (hn : a.size_ ≠ 0)
    (h : w.script.head? = some true) :
    copy_ctor a w =
      (.error .bad_alloc,
        { w with script := w.script.tail, trace := w.trace ++ [.allocate a.size_] }) := by
  simp only [copy_ctor, M.bind_apply]
  rw [M.bind_error (ctor_impl_fail a.size_ w hn h)]

/-- For an implicit-lifetime element type (such as `int`), where assigning into
freshly allocated cells is meaningful: the copy constructor, when its
allocation does not fail, yields a
container `c` of the same size holding the same sequence as `a`; when `a` is
not empty the block of `c` is a newly allocated one, disjoint from the block of
`a`; and after a write `c[i] = v` with `i < c.size()` the container `a` still
holds its sequence (and `c` holds the sequence with item `i` replaced). -/
theorem copy_ctor_independent {T : Type} [Element T]
    (htriv : Element.implicit_lifetime T = true) (w : World T) (a : Arr) (xs : List T)
    (ha : Holds w a xs) (hown : Owns w a) (hwf : w.WF)
    (hok : a.size ≠ 0 → w.script.head? ≠ some true) :
    ∃ c w1, copy_ctor a w = (.ok c, w1) ∧
      c.size = a.size ∧ Holds w1 c xs ∧ Holds w1 a xs ∧
      (a.size ≠ 0 →
        c.arr_ ≠ 0 ∧ c.arr_ ≠ a.arr_ ∧ (c.arr_, c.size_) ∈ w1.blocks ∧
        (c.arr_, c.size_) ∉ w.blocks ∧
        ∀ i j, i < a.size → j < c.size → c.arr_ + j ≠ a.arr_ + i) ∧
      ∀ i v, i < c.size →
        ∃ w2, write (c.subscript_mut i) v w1 = (.ok (), w2) ∧
          Holds w2 a xs ∧ Holds w2 c (xs.set i v) := by
  have hlen := ha.size_eq
  have hfit := owns_fit hwf hown
  by_cases hn : a.size_ = 0
  · have hxs : xs = [] := List.length_eq_zero.1 (hlen ▸ hn)
    subst hxs
    refine ⟨⟨0, 0⟩, w, copy_ctor_empty w a hn, by simp [size, hn], holds_nil_of_size w _ rfl, ha,
      fun h => absurd hn h, fun i v hi => absurd hi (by simp [size])⟩
  · have hok1 : w.script.head? ≠ some true := hok hn
    refine ⟨⟨a.size_, w.next + 1⟩, _, copy_ctor_ok htriv w a xs ha hfit hn hok1, rfl, ?_, ?_, ?_, ?_⟩
    · rw [hlen]; exact holds_after_store _ _ _
    · refine holds_frame ha fun i hi => ?_
      rw [after_store_mem_out _ _ _ _ (Or.inl (by omega))]
      simp only [World.after_allocate]
      rw [if_neg (by omega)]
    · intro _
      refine ⟨by simp, by simp only; omega, by simp [World.after_store, World.after_allocate], ?_, ?_⟩
      · intro hmem
        have := hwf _ hmem
        simp at this
        omega
      · intro i j hi hj
        simp only [size] at hi hj
        simp only
        omega
    · intro i v hi
      simp only [size] at hi
      have hix : i < xs.length := hlen ▸ hi
      have hcell : Writable ((w.after_allocate a.size_).after_store (w.next + 1) xs)
          (w.next + 1 + i) :=
        writable_of_live (after_store_mem_in _ _ _ _ hix)
      refine ⟨_, write_ok (w.next + 1 + i) v _ hcell, ?_, ?_⟩
      · refine holds_frame ha fun j hj => ?_
        simp only [Function.update_apply]
        rw [if_neg (by omega), after_store_mem_out _ _ _ _ (Or.inl (by omega))]
        simp only [World.after_allocate]
        rw [if_neg (by omega)]
      · rw [holds_iff]
        refine ⟨by simp [hlen], fun j hj => ?_⟩
        have hjx : j < xs.length := by simpa using hj
        simp only [Function.update_apply, List.getElem_set]
        by_cases hji : j = i
        · subst hji; simp
        · rw [if_neg (by omega), if_neg (by omega)]
          exact after_store_mem_in _ _ _ _ hjx

theorem copy_ctor_independent_witness :
    Holds sample_world arr_1_2_3 [1, 2, 3] ∧ Owns sample_world arr_1_2_3 ∧ sample_world.WF ∧
    (arr_1_2_3.size ≠ 0 → sample_world.script.head? ≠ some true) ∧
    ∃ c w1, copy_ctor arr_1_2_3 sample_world = (.ok c, w1) ∧
      c.size = arr_1_2_3.size ∧ Holds w1 c [1, 2, 3] ∧ Holds w1 arr_1_2_3 [1, 2, 3] ∧
      (arr_1_2_3.size ≠ 0 →
        c.arr_ ≠ 0 ∧ c.arr_ ≠ arr_1_2_3.arr_ ∧ (c.arr_, c.size_) ∈ w1.blocks ∧
        (c.arr_, c.size_) ∉ sample_world.blocks ∧
        ∀ i j, i < arr_1_2_3.size → j < c.size → c.arr_ + j ≠ arr_1_2_3.arr_ + i) ∧
      ∀ i v, i < c.size →
        ∃ w2, write (c.subscript_mut i) v w1 = (.ok (), w2) ∧
          Holds w2 arr_1_2_3 [1, 2, 3] ∧ Holds w2 c ([(1 : Int), 2, 3].set i v) :=
  ⟨by decide, by decide, by decide, fun _ => by decide,
    copy_ctor_independent rfl sample_world arr_1_2_3 [1, 2, 3] (by decide) (by decide) (by decide)
      (fun _ => by decide)⟩


/-! ## Move construction and move assignment -/

/-- C6: move construction gives a destination with the size, the storage
pointer and the element sequence of the source, leaves the source with size 0
and null storage, and leaves the world as it was: the allocator is not called
and no cell is written. -/
theorem move_ctor_adopts {T : Type} (w : World T) (a : Arr) (xs : List T)
    (ha : Holds w a xs) :
    ∃ d s, move_ctor a w = (.ok (d, s), w) ∧
      d.size = a.size ∧ d.data = a.data ∧ Holds w d xs ∧
      s.size = 0 ∧ s.data = 0 ∧ s = mk_empty := by
  refine ⟨⟨a.size_, a.arr_⟩, mk_empty, rfl, rfl, rfl, ha, rfl, rfl, rfl⟩

theorem move_ctor_adopts_witness :
    Holds sample_world arr_1_2_3 [1, 2, 3] ∧
    ∃ d s, move_ctor arr_1_2_3 sample_world = (.ok (d, s), sample_world) ∧
      d.size = arr_1_2_3.size ∧ d.data = arr_1_2_3.data ∧ Holds sample_world d [1, 2, 3] ∧
      s.size = 0 ∧ s.data = 0 ∧ s = mk_empty :=
  ⟨by decide, move_ctor_adopts sample_world arr_1_2_3 [1, 2, 3] (by decide)⟩

/-- C7, as stated, fails: move-assigning `{1, 2, 3}` to a target that holds
`{1, 2}` leaves the source with size 2 and the target's former storage, not
emptied. -/
theorem move_assign_source_not_emptied :
    ∃ t s, move_assign arr_1_2 arr_1_2_3 sample_world = (.ok (t, s), sample_world) ∧
      s.size = 2 ∧ s.data = 1 ∧ ¬ (s.size = 0 ∧ s.data = 0) :=
  ⟨⟨3, 7⟩, ⟨2, 1⟩, rfl, rfl, rfl, by decide⟩

/-- C7, amended: move assignment gives the target the size, the storage
pointer and the element sequence of the source and gives the source those of
the target, leaving the world as it was (no allocator call, no cell written);
the source ends with size 0 and null storage exactly when the target had size
0 and null storage before. -/
theorem move_assign_exchanges {T : Type} (w : World T) (target source : Arr) (ts xs : List T)
    (ht : Holds w target ts) (hs : Holds w source xs) :
    ∃ t s, move_assign target source w = (.ok (t, s), w) ∧
      t.size = source.size ∧ t.data = source.data ∧ Holds w t xs ∧
      s.size = target.size ∧ s.data = target.data ∧ Holds w s ts ∧
      ((s.size = 0 ∧ s.data = 0) ↔ (target.size = 0 ∧ target.data = 0)) := by
  refine ⟨⟨source.size_, source.arr_⟩, ⟨target.size_, target.arr_⟩, rfl, rfl, rfl, hs, rfl, rfl,
    ht, Iff.rfl⟩

theorem move_assign_exchanges_witness :
    Holds sample_world arr_1_2 [1, 2] ∧ Holds sample_world arr_1_2_3 [1, 2, 3] ∧
    ∃ t s, move_assign arr_1_2 arr_1_2_3 sample_world = (.ok (t, s), sample_world) ∧
      t.size = arr_1_2_3.size ∧ t.data = arr_1_2_3.data ∧ Holds sample_world t [1, 2, 3] ∧
      s.size = arr_1_2.size ∧ s.data = arr_1_2.data ∧ Holds sample_world s [1, 2] ∧
      ((s.size = 0 ∧ s.data = 0) ↔ (arr_1_2.size = 0 ∧ arr_1_2.data = 0)) :=
  ⟨by decide, by decide,
    move_assign_exchanges sample_world arr_1_2 arr_1_2_3 [1, 2] [1, 2, 3] (by decide) (by decide)⟩

/-! ## The destructor body -/

theorem deallocate_ok {T : Type} (p n : Nat) (w : World T) (h : (p, n) ∈ w.blocks) :
    deallocate p n w = (.ok (), w.after_deallocate p n) := by
  simp [deallocate, h, World.after_deallocate]

theorem deallocate_null {T : Type} (w : World T) (h : ((0 : Nat), (0 : Nat)) ∉ w.blocks) :
    deallocate 0 0 w = (.ok (), { w with trace := w.trace ++ [.deallocate 0 0] }) := by
  unfold deallocate
  rw [if_neg h, if_pos ⟨rfl, rfl⟩]

theorem dtor_impl_spec {T : Type} (w : World T) (a : Arr)
    (hc : ∀ i, i < a.size_ → w.mem (a.arr_ + i) ≠ .unalloc) (ho : Owns w a) :
    dtor_impl a w = (.ok (), w.after_dtor a.arr_ a.size_) := by
  simp only [dtor_impl, begin_, end_, Nat.add_zero, M.bind_apply]
  rw [M.bind_ok (destroy_range_spec a.arr_ a.size_ w hc)]
  unfold World.after_dtor
  by_cases hm : (a.arr_, a.size_) ∈ w.blocks
  · rw [if_pos hm]
    exact deallocate_ok _ _ _ hm
  · rw [if_neg hm]
    rcases ho with h | h
    · exact absurd h hm
    · subst h
      exact deallocate_null _ hm

theorem after_dtor_mem_out {T : Type} (w : World T) (p n i : Nat)
    (h : i < p ∨ p + n ≤ i) : (w.after_dtor p n).mem i = w.mem i := by
  have e : ¬ (p ≤ i ∧ i < p + n) := by omega
  unfold World.after_dtor
  split_ifs <;> simp [World.after_destroy, World.after_deallocate, e]

theorem after_dtor_next {T : Type} (w : World T) (p n : Nat) :
    (w.after_dtor p n).next = w.next := by
  unfold World.after_dtor
  split_ifs <;> rfl

theorem after_dtor_blocks {T : Type} (w : World T) (p n : Nat) :
    (w.after_dtor p n).blocks = w.blocks.erase (p, n) := by
  unfold World.after_dtor
  split_ifs with h
  · rfl
  · simp [World.after_destroy, List.erase_of_not_mem h]

theorem after_dtor_trace {T : Type} (w : World T) (p n : Nat) :
    (w.after_dtor p n).trace =
      w.trace ++ ((List.range n).map fun i => Event.destroy (p + i)) ++ [.deallocate p n] := by
  unfold World.after_dtor
  split_ifs <;> simp [World.after_destroy, World.after_deallocate]

theorem after_dtor_wf {T : Type} (w : World T) (p n : Nat) (h : w.WF) :
    (w.after_dtor p n).WF := by
  intro b hb
  rw [after_dtor_blocks] at hb
  rw [after_dtor_next]
  exact h b (List.mem_of_mem_erase hb)

theorem after_allocate_wf {T : Type} (w : World T) (n : Nat) (h : w.WF) :
    (w.after_allocate n).WF := by
  intro b hb
  simp only [World.after_allocate, List.mem_cons] at hb ⊢
  rcases hb with rfl | hb
  · simp
  · have := h b hb
    omega

/-! ## Copy assignment -/

theorem copy_assign_unfold {T : Type} [Element T] (w w1 : World T) (target rhs temp : Arr)
    (hc : copy_ctor rhs w = (.ok temp, w1))
    (hcell : ∀ i, i < target.size_ → w1.mem (target.arr_ + i) ≠ .unalloc)
    (ho : Owns w1 target) :
    copy_assign target rhs w =
      (.ok ⟨temp.size_, temp.arr_⟩, w1.after_dtor target.arr_ target.size_) := by
  simp only [copy_assign, M.bind_apply]
  rw [M.bind_ok hc]
  simp only [swap, M.bind_apply]
  rw [M.bind_ok (dtor_impl_spec w1 ⟨target.size_, target.arr_⟩ hcell ho)]
  rfl

/-- For an implicit-lifetime element type (such as `int`): copy assignment
either fails or succeeds.  It fails exactly when the
source is not empty and the allocation throws; then the exception is
`bad_alloc`, the memory and the allocated blocks are the ones before the call,
and the target still holds its sequence in its storage.  Otherwise it returns
the target with the size and the sequence of the source, owning its storage in
a well-formed world, and a source that is another object still holds its
sequence; a self-assignment is covered by `rhs = target`. -/
theorem copy_assign_strong {T : Type} [Element T]
    (htriv : Element.implicit_lifetime T = true) (w : World T) (target rhs : Arr) (ts xs : List T)
    (ht : Holds w target ts) (hr : Holds w rhs xs) (hot : Owns w target) (hor : Owns w rhs)
    (hwf : w.WF) (hsep : rhs = target ∨ Apart rhs target) :
    (rhs.size ≠ 0 ∧ w.script.head? = some true →
      ∃ w1, copy_assign target rhs w = (.error .bad_alloc, w1) ∧
        w1.mem = w.mem ∧ w1.blocks = w.blocks ∧ w1.next = w.next ∧
        Holds w1 target ts ∧ Owns w1 target ∧ Holds w1 rhs xs) ∧
    (¬ (rhs.size ≠ 0 ∧ w.script.head? = some true) →
      ∃ t w1, copy_assign target rhs w = (.ok t, w1) ∧
        t.size = rhs.size ∧ Holds w1 t xs ∧ Owns w1 t ∧ w1.WF ∧
        (rhs ≠ target → Holds w1 rhs xs ∧ Owns w1 rhs)) := by
  have hfit_t := owns_fit hwf hot
  have hfit_r := owns_fit hwf hor
  have hlen := hr.size_eq
  constructor
  · rintro ⟨hn, hfail⟩
    refine ⟨{ w with script := w.script.tail, trace := w.trace ++ [.allocate rhs.size_] },
      ?_, rfl, rfl, rfl, ?_, hot, ?_⟩
    · simp only [copy_assign, M.bind_apply]
      rw [M.bind_error (copy_ctor_fail w rhs hn hfail)]
    · exact holds_frame ht fun _ _ => rfl
    · exact holds_frame hr fun _ _ => rfl
  · intro hsucc
    by_cases hn : rhs.size_ = 0
    · -- nothing is allocated, the old storage of the target is released
      have hxs : xs = [] := List.length_eq_zero.1 (hlen ▸ hn)
      subst hxs
      have hcell : ∀ i, i < target.size_ → w.mem (target.arr_ + i) ≠ .unalloc := by
        intro i hi
        obtain ⟨v, hv⟩ := ht.live i hi
        simp [hv]
      refine ⟨⟨0, 0⟩, _, copy_assign_unfold w w target rhs ⟨0, 0⟩ (copy_ctor_empty w rhs hn)
        hcell hot, by simp [size, hn], holds_nil_of_size _ _ rfl, Or.inr rfl,
        after_dtor_wf _ _ _ hwf, fun hne => ⟨holds_nil_of_size _ _ hn, ?_⟩⟩
      rcases hor with h | h
      · left
        rw [after_dtor_blocks]
        refine (List.mem_erase_of_ne ?_).2 h
        intro he
        apply hne
        cases rhs; cases target
        simp only [Prod.mk.injEq] at he
        simp [he.1, he.2]
      · exact Or.inr h
    · have hok : w.script.head? ≠ some true := fun h => hsucc ⟨hn, h⟩
      have hcc := copy_ctor_ok htriv w rhs xs hr hfit_r hn hok
      have hcell : ∀ i, i < target.size_ →
          ((w.after_allocate rhs.size_).after_store (w.next + 1) xs).mem (target.arr_ + i)
            ≠ .unalloc := by
        intro i hi
        obtain ⟨v, hv⟩ := ht.live i hi
        rw [after_store_mem_out _ _ _ _ (Or.inl (by omega))]
        simp only [World.after_allocate]
        rw [if_neg (by omega)]
        simp [hv]
      have hown : Owns ((w.after_allocate rhs.size_).after_store (w.next + 1) xs) target := by
        rcases hot with h | h
        · exact Or.inl (by simp [World.after_store, World.after_allocate, h])
        · exact Or.inr h
      refine ⟨⟨rhs.size_, w.next + 1⟩, _, copy_assign_unfold w _ target rhs _ hcc hcell hown,
        rfl, ?_, ?_, ?_, fun hne => ⟨?_, ?_⟩⟩
      · -- the new storage lies above everything the destructor touches
        have h0 : Holds ((w.after_allocate rhs.size_).after_store (w.next + 1) xs)
            ⟨rhs.size_, w.next + 1⟩ xs := by
          rw [hlen]; exact holds_after_store _ _ _
        refine holds_frame h0 fun i _ => ?_
        exact after_dtor_mem_out _ _ _ _ (Or.inr (by simp only; omega))
      · left
        rw [after_dtor_blocks]
        refine (List.mem_erase_of_ne ?_).2 (by simp [World.after_store, World.after_allocate])
        intro he
        simp only [Prod.mk.injEq] at he
        omega
      · exact after_dtor_wf _ _ _ (by
          have := after_allocate_wf w rhs.size_ hwf
          exact this)
      · have hap : Apart rhs target := by
          rcases hsep with h | h
          · exact absurd h hne
          · exact h
        refine holds_frame hr fun i hi => ?_
        rw [after_dtor_mem_out _ _ _ _ (by unfold Apart at hap; omega),
          after_store_mem_out _ _ _ _ (Or.inl (by omega))]
        simp only [World.after_allocate]
        rw [if_neg (by omega)]
      · rcases hor with h | h
        · left
          rw [after_dtor_blocks]
          refine (List.mem_erase_of_ne ?_).2 (by simp [World.after_store, World.after_allocate, h])
          intro he
          apply hne
          cases rhs; cases target
          simp only [Prod.mk.injEq] at he
          simp [he.1, he.2]
        · exact Or.inr h

theorem copy_assign_strong_witness :
    Holds sample_world arr_1_2 [1, 2] ∧ Holds sample_world arr_1_2_3 [1, 2, 3] ∧
    Owns sample_world arr_1_2 ∧ Owns sample_world arr_1_2_3 ∧ sample_world.WF ∧
    (arr_1_2_3 = arr_1_2 ∨ Apart arr_1_2_3 arr_1_2) ∧
    ((arr_1_2_3.size ≠ 0 ∧ sample_world.script.head? = some true →
      ∃ w1, copy_assign arr_1_2 arr_1_2_3 sample_world = (.error .bad_alloc, w1) ∧
        w1.mem = sample_world.mem ∧ w1.blocks = sample_world.blocks ∧
        w1.next = sample_world.next ∧
        Holds w1 arr_1_2 [1, 2] ∧ Owns w1 arr_1_2 ∧ Holds w1 arr_1_2_3 [1, 2, 3]) ∧
    (¬ (arr_1_2_3.size ≠ 0 ∧ sample_world.script.head? = some true) →
      ∃ t w1, copy_assign arr_1_2 arr_1_2_3 sample_world = (.ok t, w1) ∧
        t.size = arr_1_2_3.size ∧ Holds w1 t [1, 2, 3] ∧ Owns w1 t ∧ w1.WF ∧
        (arr_1_2_3 ≠ arr_1_2 → Holds w1 arr_1_2_3 [1, 2, 3] ∧ Owns w1 arr_1_2_3))) :=
  ⟨by decide, by decide, by decide, by decide, by decide, by decide,
    copy_assign_strong rfl sample_world arr_1_2 arr_1_2_3 [1, 2] [1, 2, 3] (by decide) (by decide)
      (by decide) (by decide) (by decide) (by decide)⟩


/-! ## Assignment of an initializer list -/

theorem realloc_to_size_empty_ok {T : Type} (w : World T) (a : Arr) (n : Nat)
    (hc : ∀ i, i < a.size_ → w.mem (a.arr_ + i) ≠ .unalloc) (ho : Owns w a)
    (hfit : a.arr_ + a.size_ ≤ w.next) (hok : w.script.head? ≠ some true) :
    realloc_to_size_empty a n w =
      (.ok ⟨n, w.next + 1⟩, (w.after_allocate n).after_dtor a.arr_ a.size_) := by
  simp only [realloc_to_size_empty, M.bind_apply]
  rw [M.bind_ok (allocate_ok n w hok)]
  rw [M.seq_ok (dtor_impl_spec (w.after_allocate n) a ?_ ?_)]
  · rfl
  · intro i hi
    simp only [World.after_allocate]
    rw [if_neg (by omega)]
    exact hc i hi
  · rcases ho with h | h
    · exact Or.inl (by simp [World.after_allocate, h])
    · exact Or.inr h

theorem realloc_to_size_empty_fail {T : Type} (w : World T) (a : Arr) (n : Nat)
    (h : w.script.head? = some true) :
    realloc_to_size_empty a n w =
      (.error .bad_alloc, { w with script := w.script.tail, trace := w.trace ++ [.allocate n] }) := by
  simp only [realloc_to_size_empty, M.bind_apply]
  rw [M.bind_error (allocate_fail n w h)]

theorem list_assign_realloc {T : Type} [Element T]
    (htriv : Element.implicit_lifetime T = true) (w : World T) (a : Arr) (xs l : List T)
    (ha : Holds w a xs) (ho : Owns w a) (hwf : w.WF) (hne : a.size_ ≠ l.length)
    (hok : w.script.head? ≠ some true) :
    list_assign a l w =
      (.ok ⟨l.length, w.next + 1⟩,
        ((w.after_allocate l.length).after_dtor a.arr_ a.size_).after_store (w.next + 1) l) := by
  have hfit := owns_fit hwf ho
  have hc : ∀ i, i < a.size_ → w.mem (a.arr_ + i) ≠ .unalloc := by
    intro i hi
    obtain ⟨v, hv⟩ := ha.live i hi
    simp [hv]
  simp only [list_assign, ne_eq, hne, not_false_eq_true, if_true, M.bind_apply]
  rw [M.bind_ok (realloc_to_size_empty_ok w a l.length hc ho hfit hok)]
  rw [M.seq_ok (std_copy_list_spec l (w.next + 1) _ ?_)]
  · rfl
  · intro i hi
    refine writable_of_ne_unalloc htriv ?_
    rw [after_dtor_mem_out _ _ _ _ (Or.inr (by omega))]
    simp only [World.after_allocate]
    rw [if_pos (by omega)]
    simp

theorem list_assign_reuse {T : Type} [Element T]
    (htriv : Element.implicit_lifetime T = true) (w : World T) (a : Arr) (xs l : List T)
    (ha : Holds w a xs) (heq : a.size_ = l.length) :
    list_assign a l w =
      (.ok a, (w.after_destroy a.arr_ a.size_).after_store a.arr_ l) := by
  have hc : ∀ i, i < a.size_ → w.mem (a.arr_ + i) ≠ .unalloc := by
    intro i hi
    obtain ⟨v, hv⟩ := ha.live i hi
    simp [hv]
  simp only [list_assign, ne_eq, heq, not_true_eq_false, if_false, M.bind_apply, begin_, end_,
    Nat.add_zero]
  rw [← heq, M.bind_ok (destroy_range_spec a.arr_ a.size_ w hc), M.bind_apply,
    M.bind_ok (M.pure_apply _ _), M.seq_ok (std_copy_list_spec l a.arr_ _ ?_)]
  · rfl
  · intro i hi
    refine writable_of_ne_unalloc htriv ?_
    simp only [World.after_destroy]
    rw [if_pos (by omega)]
    simp

/-- For an implicit-lifetime element type (such as `int`): assigning an
initializer list `l` (when the allocation, if one is
needed, does not fail) leaves the container with size `l.size()` and with
`a[i]` equal to the `i`-th item of `l`.  When `l.size()` differs from the old
size the storage is a block allocated by this call, not the old one, and the
old elements were destroyed and the old block released; when the sizes are
equal the storage pointer, the set of allocated blocks and `next` are
unchanged, and the allocator was only asked to destroy the old elements. -/
theorem list_assign_spec {T : Type} [Element T]
    (htriv : Element.implicit_lifetime T = true) (w : World T) (a : Arr) (xs l : List T)
    (ha : Holds w a xs) (ho : Owns w a) (hwf : w.WF)
    (hok : a.size ≠ l.length → w.script.head? ≠ some true) :
    ∃ t w1, list_assign a l w = (.ok t, w1) ∧
      t.size = l.length ∧ Holds w1 t l ∧
      (∀ i (h : i < l.length), read (t.subscript i) w1 = (.ok l[i], w1)) ∧
      (a.size ≠ l.length →
        t.data = w.next + 1 ∧ t.data ≠ 0 ∧ t.data ≠ a.data ∧
        (t.data, t.size) ∉ w.blocks ∧
        w1.blocks = (t.data, t.size) :: w.blocks.erase (a.data, a.size) ∧
        w1.trace = w.trace ++ [Event.allocate l.length] ++
          ((List.range a.size).map fun i => Event.destroy (a.data + i)) ++
          [Event.deallocate a.data a.size]) ∧
      (a.size = l.length →
        t.data = a.data ∧ w1.blocks = w.blocks ∧ w1.next = w.next ∧
        w1.trace = w.trace ++ (List.range a.size).map fun i => Event.destroy (a.data + i)) := by
  have hfit := owns_fit hwf ho
  by_cases hne : a.size_ = l.length
  · have h0 : Holds ((w.after_destroy a.arr_ a.size_).after_store a.arr_ l) a l := by
      have := holds_after_store (w.after_destroy a.arr_ a.size_) a.arr_ l
      rwa [← hne] at this
    refine ⟨a, _, list_assign_reuse htriv w a xs l ha hne, hne, h0,
      fun i h => read_live (h0.mem_eq i h), fun h => absurd hne h, fun _ => ⟨rfl, rfl, rfl, rfl⟩⟩
  · have hok1 : w.script.head? ≠ some true := hok hne
    have h0 := holds_after_store ((w.after_allocate l.length).after_dtor a.arr_ a.size_)
      (w.next + 1) l
    refine ⟨⟨l.length, w.next + 1⟩, _, list_assign_realloc htriv w a xs l ha ho hwf hne hok1, rfl, h0,
      fun i h => read_live (h0.mem_eq i h), fun _ => ⟨rfl, by simp [data], ?_, ?_, ?_, ?_⟩,
      fun h => absurd h hne⟩
    · simp only [data]; omega
    · intro hmem
      have := hwf _ hmem
      simp only [data, size] at this
      omega
    · simp only [World.after_store, after_dtor_blocks, World.after_allocate, data, size]
      rw [List.erase_cons_tail]
      simp only [beq_iff_eq, Prod.mk.injEq, not_and]
      intro h
      omega
    · simp only [World.after_store, after_dtor_trace, World.after_allocate, data, size]

theorem list_assign_spec_witness :
    Holds sample_world arr_1_2 [1, 2] ∧ Owns sample_world arr_1_2 ∧ sample_world.WF ∧
    (arr_1_2.size ≠ [(4 : Int), 5, 6].length → sample_world.script.head? ≠ some true) ∧
    ∃ t w1, list_assign arr_1_2 [(4 : Int), 5, 6] sample_world = (.ok t, w1) ∧
      t.size = [(4 : Int), 5, 6].length ∧ Holds w1 t [4, 5, 6] ∧
      (∀ i (h : i < [(4 : Int), 5, 6].length),
        read (t.subscript i) w1 = (.ok [(4 : Int), 5, 6][i], w1)) ∧
      (arr_1_2.size ≠ [(4 : Int), 5, 6].length →
        t.data = sample_world.next + 1 ∧ t.data ≠ 0 ∧ t.data ≠ arr_1_2.data ∧
        (t.data, t.size) ∉ sample_world.blocks ∧
        w1.blocks = (t.data, t.size) :: sample_world.blocks.erase (arr_1_2.data, arr_1_2.size) ∧
        w1.trace = sample_world.trace ++ [Event.allocate [(4 : Int), 5, 6].length] ++
          ((List.range arr_1_2.size).map fun i => Event.destroy (arr_1_2.data + i)) ++
          [Event.deallocate arr_1_2.data arr_1_2.size]) ∧
      (arr_1_2.size = [(4 : Int), 5, 6].length →
        t.data = arr_1_2.data ∧ w1.blocks = sample_world.blocks ∧
        w1.next = sample_world.next ∧
        w1.trace = sample_world.trace ++
          (List.range arr_1_2.size).map fun i => Event.destroy (arr_1_2.data + i)) :=
  ⟨by decide, by decide, by decide, fun _ => by decide,
    list_assign_spec rfl sample_world arr_1_2 [1, 2] [4, 5, 6] (by decide) (by decide) (by decide)
      (fun _ => by decide)⟩


/-! ## Printing -/

theorem intercalate_go_append (p s : String) :
    ∀ (l : List String) (acc : String),
      String.intercalate.go (p ++ acc) s l = p ++ String.intercalate.go acc s l := by
  intro l
  induction l with
  | nil => intro acc; rfl
  | cons a l ih =>
    intro acc
    simp only [String.intercalate.go]
    rw [String.append_assoc, String.append_assoc, ← String.append_assoc acc, ih]

theorem print_loop_spec {T : Type} [ToString T] (w : World T) :
    ∀ (rest : List T) (x : T) (itr : Nat) (os : String) (k : Nat), rest.length ≤ k →
      (∀ i (h : i < (x :: rest).length), w.mem (itr + i) = .live (x :: rest)[i]) →
      print.loop k itr (itr + (x :: rest).length) os w =
        (.ok (String.intercalate.go (os ++ toString x) ", " (rest.map toString)), w) := by
  intro rest
  induction rest with
  | nil =>
    intro x itr os k _ hm
    have hx : read itr w = (.ok x, w) := read_live (by simpa using hm 0 (by simp))
    cases k <;>
      simp [print.loop, M.bind, hx, String.intercalate.go]
  | cons y rest ih =>
    intro x itr os k hk hm
    have hx : read itr w = (.ok x, w) := read_live (by simpa using hm 0 (by simp))
    cases k with
    | zero => simp at hk
    | succ k =>
      have hne : ¬ itr + 1 = itr + (x :: y :: rest).length := by
        simp only [List.length_cons]; omega
      have hrec := ih y (itr + 1) (os ++ toString x ++ ", ") k (by simpa using hk)
        (fun i h => by
          have := hm (i + 1) (by simpa using h)
          rw [show itr + 1 + i = itr + (i + 1) by omega]
          simpa using this)
      rw [show itr + 1 + (y :: rest).length = itr + (x :: y :: rest).length by
        simp only [List.length_cons]; omega] at hrec
      simp only [print.loop, M.bind_apply, M.bind, hx, M.pure_apply, hne, if_false, hrec,
        List.map_cons, String.intercalate.go]

theorem print_spec {T : Type} [ToString T] (w : World T) (a : Arr) (xs : List T)
    (ha : Holds w a xs) (os : String) :
    print os a w = (.ok (os ++ "[" ++ ", ".intercalate (xs.map toString) ++ "]"), w) := by
  have hlen := ha.size_eq
  cases xs with
  | nil =>
    have h0 : a.size_ = 0 := by simpa using hlen
    simp [print, empty, h0, M.bind, String.intercalate]
  | cons x rest =>
    have hn : a.size_ = rest.length + 1 := by simpa using hlen
    have hloop := print_loop_spec w rest x a.arr_ (os ++ "[") (rest.length + 1) (by omega)
      (fun i h => ha.mem_eq i h)
    simp only [List.length_cons] at hloop
    have hc : (!(rest.length + 1 == 0)) = true := by simp
    simp only [print, empty, hn, begin_, end_, Nat.add_zero, Nat.add_sub_cancel_left,
      List.map_cons, String.intercalate]
    rw [if_pos hc, M.bind_apply, M.bind_ok hloop, M.pure_apply, intercalate_go_append,
      String.append_assoc (os ++ "[")]

/-- C10: printing a container that holds `e0 .. en-1` appends to the stream
exactly `[`, the textual forms of the elements in order joined by `, `, and
`]`; the empty container prints as `[]` and `{1, 2, 3}` as `[1, 2, 3]`. -/
theorem print_format {T : Type} [ToString T] (w : World T) (a : Arr) (xs : List T)
    (ha : Holds w a xs) (os : String) :
    print os a w = (.ok (os ++ "[" ++ ", ".intercalate (xs.map toString) ++ "]"), w) ∧
    print "" mk_empty sample_world = (.ok "[]", sample_world) ∧
    print "" arr_1_2_3 sample_world = (.ok "[1, 2, 3]", sample_world) := by
  refine ⟨print_spec w a xs ha os, ?_, ?_⟩
  · rfl
  · rfl

theorem print_format_witness :
    Holds sample_world arr_1_3 [1, 3] ∧
    (print "a = " arr_1_3 sample_world =
      (.ok ("a = " ++ "[" ++ ", ".intercalate ([(1 : Int), 3].map toString) ++ "]"),
        sample_world) ∧
    print "" mk_empty sample_world = (.ok "[]", sample_world) ∧
    print "" arr_1_2_3 sample_world = (.ok "[1, 2, 3]", sample_world)) :=
  ⟨by decide, print_format sample_world arr_1_3 [1, 3] (by decide) "a = "⟩


/-! ## The sample world is reached by running the constructors -/

theorem list_ctor_ok {T : Type} [Element T]
    (htriv : Element.implicit_lifetime T = true) (w : World T) (l : List T) (hn : l ≠ [])
    (hok : w.script.head? ≠ some true) :
    list_ctor l w =
      (.ok ⟨l.length, w.next + 1⟩, (w.after_allocate l.length).after_store (w.next + 1) l) := by
  have hlen : l.length ≠ 0 := by simpa using hn
  simp only [list_ctor, M.bind_apply]
  rw [M.bind_ok (ctor_impl_ok l.length w hlen hok)]
  rw [M.seq_ok (std_copy_list_spec l (w.next + 1) _ ?_)]
  · rfl
  · intro i hi
    refine writable_of_ne_unalloc htriv ?_
    simp only [World.after_allocate]
    rw [if_pos (by omega)]
    simp

theorem sample_world_reached :
    ∃ w1 w2 w3,
      list_ctor [1, 2] (World.init Int) = (.ok arr_1_2, w1) ∧
      list_ctor [1, 3] w1 = (.ok arr_1_3, w2) ∧
      list_ctor [1, 2, 3] w2 = (.ok arr_1_2_3, w3) ∧
      w3 = sample_world := by
  refine ⟨_, _, _, list_ctor_ok rfl _ _ (by simp) (by simp [World.init]),
    list_ctor_ok rfl _ _ (by simp) (by simp [World.init, World.after_store, World.after_allocate]),
    list_ctor_ok rfl _ _ (by simp) (by simp [World.init, World.after_store, World.after_allocate]), ?_⟩
  refine World.ext ?_ rfl rfl rfl rfl
  funext i
  rcases Nat.lt_or_ge i 10 with h | h
  · interval_cases i <;> rfl
  · obtain ⟨k, rfl⟩ : ∃ k, i = k + 10 := ⟨i - 10, by omega⟩
    simp [World.after_store, World.after_allocate, World.init, sample_world]
    rw [if_neg (by omega), if_neg (by omega)]


/-- The failing branch of copy assignment, run on a concrete input: with an
allocator that throws at its next call, assigning `{1, 2, 3}` to the container
holding `{1, 2}` throws `bad_alloc` and the target still holds `{1, 2}`. -/
theorem copy_assign_fail_example :
    ∃ w1, copy_assign arr_1_2 arr_1_2_3 { sample_world with script := [true] } =
        (.error .bad_alloc, w1) ∧
      w1.mem = sample_world.mem ∧ w1.blocks = sample_world.blocks ∧ Holds w1 arr_1_2 [1, 2] :=
  ⟨_, rfl, rfl, rfl, by decide⟩


/-! ## Round trip through the iterators -/

theorem list_ctor_nil {T : Type} [Element T] (w : World T) :
    list_ctor ([] : List T) w = (.ok ⟨0, 0⟩, w) := by
  simp only [list_ctor, List.length_nil, M.bind_apply]
  rw [M.bind_ok (ctor_impl_zero w)]
  rfl

theorem traverse_loop_spec {T : Type} (w : World T) :
    ∀ (rest : List T) (p : Nat) (out : List T) (k : Nat), rest.length ≤ k →
      (∀ i (h : i < rest.length), w.mem (p + i) = .live rest[i]) →
      traverse.loop k ⟨(p : Int)⟩ ⟨((p + rest.length : Nat) : Int)⟩ out w =
        (.ok (out ++ rest), w) := by
  intro rest
  induction rest with
  | nil =>
    intro p out k _ _
    cases k <;> simp [traverse.loop, Iter.op_ne, Iter.op_eq]
  | cons x rest ih =>
    intro p out k hk hm
    cases k with
    | zero => simp at hk
    | succ k =>
      have hne : Iter.op_ne ⟨(p : Int)⟩ ⟨((p + (x :: rest).length : Nat) : Int)⟩ = true := by
        simp only [Iter.op_ne, Iter.op_eq, List.length_cons, Bool.not_eq_true', beq_eq_false_iff_ne,
          ne_eq]
        omega
      have hx : Iter.deref (T := T) ⟨(p : Int)⟩ w = (.ok x, w) := by
        have h0 : ¬ ((p : Int) < 0) := by omega
        simp only [Iter.deref, h0, if_false, Int.toNat_ofNat]
        exact read_live (by simpa using hm 0 (by simp))
      have hinc : Iter.pre_inc ⟨(p : Int)⟩ = ⟨((p + 1 : Nat) : Int)⟩ := by
        simp [Iter.pre_inc]
      have hrec := ih (p + 1) (out ++ [x]) k (by simpa using hk) (fun i h => by
        have := hm (i + 1) (by simpa using h)
        rw [show p + 1 + i = p + (i + 1) by omega]
        simpa using this)
      rw [show p + 1 + rest.length = p + (x :: rest).length by
        simp only [List.length_cons]; omega] at hrec
      simp only [traverse.loop, hne, if_true, M.bind_apply]
      rw [M.bind_ok hx, hinc, hrec]
      simp

theorem rtraverse_loop_spec {T : Type} (w : World T) :
    ∀ (rest : List T) (p : Nat) (out : List T) (k : Nat), rest.length ≤ k →
      (∀ i (h : i < rest.length), w.mem (p + i) = .live rest[i]) →
      rtraverse.loop k ⟨⟨((p + rest.length : Nat) : Int)⟩⟩ ⟨⟨(p : Int)⟩⟩ out w =
        (.ok (out ++ rest.reverse), w) := by
  intro rest
  induction rest using List.reverseRecOn with
  | nil =>
    intro p out k _ _
    cases k <;> simp [rtraverse.loop, RevIter.op_ne, Iter.op_ne, Iter.op_eq]
  | append_singleton l x ih =>
    intro p out k hk hm
    cases k with
    | zero => simp at hk
    | succ k =>
      have hlen : (l ++ [x]).length = l.length + 1 := by simp
      have hne : RevIter.op_ne ⟨⟨((p + (l ++ [x]).length : Nat) : Int)⟩⟩ ⟨⟨(p : Int)⟩⟩ = true := by
        simp only [RevIter.op_ne, Iter.op_ne, Iter.op_eq, hlen, Bool.not_eq_true',
          beq_eq_false_iff_ne, ne_eq]
        omega
      have hdec : Iter.pre_dec ⟨((p + (l ++ [x]).length : Nat) : Int)⟩ =
          ⟨((p + l.length : Nat) : Int)⟩ := by
        simp only [Iter.pre_dec, hlen, Iter.mk.injEq]
        push_cast
        ring
      have hx : RevIter.deref (T := T) ⟨⟨((p + (l ++ [x]).length : Nat) : Int)⟩⟩ w =
          (.ok x, w) := by
        have h0 : ¬ (((p + l.length : Nat) : Int) < 0) := by omega
        simp only [RevIter.deref, hdec, Iter.deref, h0, if_false, Int.toNat_ofNat]
        exact read_live (by simpa using hm l.length (by simp))
      have hinc : RevIter.pre_inc ⟨⟨((p + (l ++ [x]).length : Nat) : Int)⟩⟩ =
          ⟨⟨((p + l.length : Nat) : Int)⟩⟩ := by
        simp only [RevIter.pre_inc, hdec]
      have hrec := ih p (out ++ [x]) k (by simp at hk; omega) (fun i h => by
        have := hm i (by simp; omega)
        rw [this]
        simp [List.getElem_append_left, h])
      simp only [rtraverse.loop, hne, if_true, M.bind_apply]
      rw [M.bind_ok hx, hinc, hrec]
      simp

theorem traverse_spec {T : Type} (w : World T) (a : Arr) (xs : List T) (ha : Holds w a xs) :
    traverse a w = (.ok xs, w) ∧ rtraverse a w = (.ok xs.reverse, w) := by
  have hlen := ha.size_eq
  constructor
  · have := traverse_loop_spec w xs a.arr_ [] xs.length (le_refl _) (fun i h => ha.mem_eq i h)
    simpa [traverse, it_begin, it_end, size, hlen] using this
  · have := rtraverse_loop_spec w xs a.arr_ [] xs.length (le_refl _) (fun i h => ha.mem_eq i h)
    simpa [rtraverse, rbegin, rend, it_begin, it_end, size, hlen] using this

/-- For an implicit-lifetime element type (such as `int`): a container
constructed from the sequence `s` by the initializer-list
constructor (when its allocation does not fail) has size `s.size()`; walking
it from `begin()` to `end()` by dereference and increment yields exactly `s`,
so `s.size()` elements are visited, and walking it from `rbegin()` to `rend()`
yields `s` reversed.  Neither walk changes the world. -/
theorem list_ctor_round_trip {T : Type} [Element T]
    (htriv : Element.implicit_lifetime T = true) (w : World T) (s : List T)
    (hok : s ≠ [] → w.script.head? ≠ some true) :
    ∃ a w1, list_ctor s w = (.ok a, w1) ∧ a.size = s.length ∧
      Iter.diff a.it_end a.it_begin = s.length ∧
      traverse a w1 = (.ok s, w1) ∧ rtraverse a w1 = (.ok s.reverse, w1) := by
  by_cases hs : s = []
  · subst hs
    have ht := traverse_spec w ⟨0, 0⟩ ([] : List T) (holds_nil_of_size w _ rfl)
    exact ⟨⟨0, 0⟩, w, list_ctor_nil w, rfl, by simp [Iter.diff, it_end, it_begin], ht.1, ht.2⟩
  · have ht := traverse_spec _ _ s
      (holds_after_store (w.after_allocate s.length) (w.next + 1) s)
    exact ⟨⟨s.length, w.next + 1⟩, _, list_ctor_ok htriv w s hs (hok hs), rfl,
      by simp [Iter.diff, it_end, it_begin], ht.1, ht.2⟩

theorem list_ctor_round_trip_witness :
    (([4, 5, 6] : List Int) ≠ [] → sample_world.script.head? ≠ some true) ∧
    ∃ a w1, list_ctor ([4, 5, 6] : List Int) sample_world = (.ok a, w1) ∧
      a.size = ([4, 5, 6] : List Int).length ∧
      Iter.diff a.it_end a.it_begin = ([4, 5, 6] : List Int).length ∧
      traverse a w1 = (.ok [4, 5, 6], w1) ∧
      rtraverse a w1 = (.ok ([4, 5, 6] : List Int).reverse, w1) :=
  ⟨fun _ => by decide, list_ctor_round_trip rfl sample_world [4, 5, 6] (fun _ => by decide)⟩


/-! ## Swap -/

/-- C12: `swap(a, b)` leaves `a` with the former size, storage pointer and
element sequence of `b`, and `b` with those of `a`; it is a function of the
two objects alone, so the memory and the allocator are not touched; and
swapping twice gives back the two containers. -/
theorem swap_exchanges {T : Type} (w : World T) (a b : Arr) (xs ys : List T)
    (ha : Holds w a xs) (hb : Holds w b ys) :
    (swap a b).1.size = b.size ∧ (swap a b).1.data = b.data ∧ Holds w (swap a b).1 ys ∧
    (swap a b).2.size = a.size ∧ (swap a b).2.data = a.data ∧ Holds w (swap a b).2 xs ∧
    swap (swap a b).1 (swap a b).2 = (a, b) :=
  ⟨rfl, rfl, hb, rfl, rfl, ha, rfl⟩

theorem swap_exchanges_witness :
    Holds sample_world arr_1_2 [1, 2] ∧ Holds sample_world arr_1_2_3 [1, 2, 3] ∧
    ((swap arr_1_2 arr_1_2_3).1.size = arr_1_2_3.size ∧
    (swap arr_1_2 arr_1_2_3).1.data = arr_1_2_3.data ∧
    Holds sample_world (swap arr_1_2 arr_1_2_3).1 [1, 2, 3] ∧
    (swap arr_1_2 arr_1_2_3).2.size = arr_1_2.size ∧
    (swap arr_1_2 arr_1_2_3).2.data = arr_1_2.data ∧
    Holds sample_world (swap arr_1_2 arr_1_2_3).2 [1, 2] ∧
    swap (swap arr_1_2 arr_1_2_3).1 (swap arr_1_2 arr_1_2_3).2 = (arr_1_2, arr_1_2_3)) :=
  ⟨by decide, by decide,
    swap_exchanges sample_world arr_1_2 arr_1_2_3 [1, 2] [1, 2, 3] (by decide) (by decide)⟩

/-! ## The storage and liveness invariants at concrete inputs -/

/-- C13 at a failing input: assigning the empty initializer list, or
`assign(0, 7)`, to the container holding `{1, 2}` succeeds and leaves it with
size 0 and the non-null storage pointer that `allocate(0)` returned. -/
theorem empty_assign_keeps_storage :
    (∃ t w1, list_assign arr_1_2 ([] : List Int) sample_world = (.ok t, w1) ∧
      t.size = 0 ∧ t.data = 11 ∧ t.data ≠ 0) ∧
    (∃ t w1, fill_assign arr_1_2 0 (7 : Int) sample_world = (.ok t, w1) ∧
      t.size = 0 ∧ t.data = 11 ∧ t.data ≠ 0) ∧
    (∃ t w1, assign_list arr_1_2 ([] : List Int) sample_world = (.ok t, w1) ∧
      t.size = 0 ∧ t.data = 11 ∧ t.data ≠ 0) :=
  ⟨⟨_, _, rfl, rfl, rfl, by decide⟩, ⟨_, _, rfl, rfl, rfl, by decide⟩,
    ⟨_, _, rfl, rfl, rfl, by decide⟩⟩

/-- C14 at a failing input: assigning the single-pass source `9` to the
container holding `{1, 2, 3}` succeeds and leaves the size at 3, with the first
cell holding 9 and the cells of index 1 and 2 destroyed. -/
theorem short_single_pass_leaves_dead_cells :
    ∃ t w1, assign arr_1_2_3 .input ([9] : List Int) sample_world = (.ok t, w1) ∧
      t.size = 3 ∧ w1.mem (t.subscript 0) = .live 9 ∧
      w1.mem (t.subscript 1) = .raw ∧ w1.mem (t.subscript 2) = .raw ∧
      w1.trace = sample_world.trace ++ [.destroy 8, .destroy 9] :=
  ⟨_, _, rfl, rfl, rfl, rfl, rfl, rfl⟩

/-- C17 at failing inputs: the result of range construction depends on what
the two members hold when the body runs.  With both members zero, the
multi-pass source `1 2 3` gives a container of size 3, but the single-pass
source `1 2 3` gives a container of size 0 without storage.  With members that
hold `size_ = 2` and a null `arr_`, the multi-pass source `7 8` makes the
constructor call `destroy` on memory that was never allocated, and the
single-pass source `7 8` makes it write there. -/
theorem range_ctor_reads_members :
    (∃ w1, range_ctor mk_empty .forward ([1, 2, 3] : List Int) (World.init Int) =
      (.ok ⟨3, 1⟩, w1)) ∧
    (∃ w1, range_ctor mk_empty .input ([1, 2, 3] : List Int) (World.init Int) =
      (.ok ⟨0, 0⟩, w1)) ∧
    (∃ w1, range_ctor ⟨2, 0⟩ .forward ([7, 8] : List Int) (World.init Int) =
      (.error .undefined, w1)) ∧
    (∃ w1, range_ctor ⟨2, 0⟩ .input ([7, 8] : List Int) (World.init Int) =
      (.error .undefined, w1)) :=
  ⟨⟨_, rfl⟩, ⟨_, rfl⟩, ⟨_, rfl⟩, ⟨_, rfl⟩⟩


/-! ## Destruction -/

theorem count_destroy_range (p n i : Nat) (hi : i < n) :
    ((List.range n).map fun j => Event.destroy (p + j)).count (Event.destroy (p + i)) = 1 := by
  apply List.count_eq_one_of_mem
  · refine List.Nodup.map ?_ (List.nodup_range n)
    intro x y hxy
    simp only [Event.destroy.injEq] at hxy
    omega
  · exact List.mem_map.2 ⟨i, List.mem_range.2 hi, rfl⟩

/-- C18: destroying a container with storage `p` and size `n` whose elements
are live succeeds, and the calls it makes to the allocator are exactly
`destroy(p + 0)`, ..., `destroy(p + n - 1)` in this order followed by
`deallocate(p, n)`: every element is destroyed once, the block is released
once, and no cell of the container holds a live object afterwards. -/
theorem dtor_call_sequence {T : Type} (w : World T) (a : Arr) (xs : List T)
    (ha : Holds w a xs) (ho : Owns w a) :
    ∃ w1, dtor a w = (.ok (), w1) ∧
      w1.trace = w.trace ++ ((List.range a.size).map fun i => Event.destroy (a.data + i)) ++
        [Event.deallocate a.data a.size] ∧
      (∀ i, i < a.size →
        (w1.trace.drop w.trace.length).count (Event.destroy (a.data + i)) = 1) ∧
      (w1.trace.drop w.trace.length).count (Event.deallocate a.data a.size) = 1 ∧
      (∀ n, Event.allocate n ∉ w1.trace.drop w.trace.length) ∧
      (∀ q, Event.construct q ∉ w1.trace.drop w.trace.length) ∧
      (∀ i v, i < a.size → w1.mem (a.data + i) ≠ .live v) := by
  have hc : ∀ i, i < a.size_ → w.mem (a.arr_ + i) ≠ .unalloc := by
    intro i hi
    obtain ⟨v, hv⟩ := ha.live i hi
    simp [hv]
  have hdrop : ((w.after_dtor a.arr_ a.size_).trace.drop w.trace.length) =
      ((List.range a.size_).map fun i => Event.destroy (a.arr_ + i)) ++
        [Event.deallocate a.arr_ a.size_] := by
    rw [after_dtor_trace, List.append_assoc, List.drop_left]
  refine ⟨_, dtor_impl_spec w a hc ho, after_dtor_trace w _ _, ?_, ?_, ?_, ?_, ?_⟩
  · intro i hi
    simp only [data, size] at hi ⊢
    rw [hdrop, List.count_append, count_destroy_range _ _ _ hi]
    simp
  · simp only [data, size]
    rw [hdrop, List.count_append]
    simp [List.count_eq_zero]
  · intro n
    rw [hdrop]
    simp
  · intro q
    rw [hdrop]
    simp
  · intro i v hi
    simp only [data, size] at hi ⊢
    have e : a.arr_ ≤ a.arr_ + i ∧ a.arr_ + i < a.arr_ + a.size_ := by omega
    unfold World.after_dtor
    split_ifs <;> simp [World.after_destroy, World.after_deallocate, e]

theorem dtor_call_sequence_witness :
    Holds sample_world arr_1_2_3 [1, 2, 3] ∧ Owns sample_world arr_1_2_3 ∧
    ∃ w1, dtor arr_1_2_3 sample_world = (.ok (), w1) ∧
      w1.trace = sample_world.trace ++
        ((List.range arr_1_2_3.size).map fun i => Event.destroy (arr_1_2_3.data + i)) ++
        [Event.deallocate arr_1_2_3.data arr_1_2_3.size] ∧
      (∀ i, i < arr_1_2_3.size →
        (w1.trace.drop sample_world.trace.length).count (Event.destroy (arr_1_2_3.data + i))
          = 1) ∧
      (w1.trace.drop sample_world.trace.length).count
        (Event.deallocate arr_1_2_3.data arr_1_2_3.size) = 1 ∧
      (∀ n, Event.allocate n ∉ w1.trace.drop sample_world.trace.length) ∧
      (∀ q, Event.construct q ∉ w1.trace.drop sample_world.trace.length) ∧
      (∀ i v, i < arr_1_2_3.size → w1.mem (arr_1_2_3.data + i) ≠ .live v) :=
  ⟨by decide, by decide,
    dtor_call_sequence sample_world arr_1_2_3 [1, 2, 3] (by decide) (by decide)⟩

/-! ## Allocation failure in a reallocating assignment -/

/-- C19: when the new size `l.size()` differs from the size of `a` and the
allocation throws, assignment of the initializer list `l`, `assign(l.size(), v)`,
`assign(first, last)` from a multi-pass source with the items of `l` and
`assign(l)` all leave with `bad_alloc`; the only call made to the allocator is
the failed `allocate`, so no element was destroyed, and the memory, the
allocated blocks and the contents of `a` are what they were. -/
theorem realloc_assign_atomic {T : Type} [Element T] (w : World T) (a : Arr) (xs l : List T) (v : T)
    (ha : Holds w a xs) (hm : l.length ≠ a.size) (hfail : w.script.head? = some true) :
    ∃ w1, list_assign a l w = (.error .bad_alloc, w1) ∧
      fill_assign a l.length v w = (.error .bad_alloc, w1) ∧
      assign a .forward l w = (.error .bad_alloc, w1) ∧
      assign_list a l w = (.error .bad_alloc, w1) ∧
      w1.trace = w.trace ++ [Event.allocate l.length] ∧
      w1.mem = w.mem ∧ w1.blocks = w.blocks ∧ w1.next = w.next ∧
      Holds w1 a xs := by
  have hne : a.size_ ≠ l.length := fun h => hm h.symm
  have hr := realloc_to_size_empty_fail w a l.length hfail
  refine ⟨{ w with script := w.script.tail, trace := w.trace ++ [.allocate l.length] },
    ?_, ?_, ?_, ?_, rfl, rfl, rfl, rfl, holds_frame ha fun _ _ => rfl⟩
  · simp only [list_assign, ne_eq, hne, not_false_eq_true, if_true, M.bind_apply]
    rw [M.bind_error hr]
  · simp only [fill_assign, ne_eq, hne, not_false_eq_true, if_true, M.bind_apply]
    rw [M.bind_error hr]
  · simp only [assign, assign_range_forward, ne_eq, hne, not_false_eq_true, if_true,
      M.bind_apply]
    rw [M.bind_error hr]
  · simp only [assign_list, assign_range_forward, ne_eq, hne, not_false_eq_true, if_true,
      M.bind_apply]
    rw [M.bind_error hr]

theorem realloc_assign_atomic_witness :
    Holds sample_world_failing arr_1_2 [1, 2] ∧
    ([(4 : Int), 5, 6].length ≠ arr_1_2.size) ∧
    sample_world_failing.script.head? = some true ∧
    ∃ w1, list_assign arr_1_2 [(4 : Int), 5, 6] sample_world_failing = (.error .bad_alloc, w1) ∧
      fill_assign arr_1_2 [(4 : Int), 5, 6].length 7 sample_world_failing =
        (.error .bad_alloc, w1) ∧
      assign arr_1_2 .forward [(4 : Int), 5, 6] sample_world_failing = (.error .bad_alloc, w1) ∧
      assign_list arr_1_2 [(4 : Int), 5, 6] sample_world_failing = (.error .bad_alloc, w1) ∧
      w1.trace = sample_world_failing.trace ++ [Event.allocate [(4 : Int), 5, 6].length] ∧
      w1.mem = sample_world_failing.mem ∧ w1.blocks = sample_world_failing.blocks ∧
      w1.next = sample_world_failing.next ∧
      Holds w1 arr_1_2 [1, 2] :=
  ⟨by decide, by decide, by decide,
    realloc_assign_atomic sample_world_failing arr_1_2 [1, 2] [4, 5, 6] 7 (by decide)
      (by decide) (by decide)⟩


/-! ## Assignment of a multi-pass range -/

theorem assign_range_forward_eq {T : Type} [Element T] (a : Arr) (src : List T) :
    assign_range_forward a src = list_assign a src := rfl

/-- For an implicit-lifetime element type (such as `int`):
`assign(first, last)` from a multi-pass source with the items `src`,
and likewise `assign(list)`, when the allocation (if one is needed) does not
fail, leaves the container with size `n = src.size()` and `a[i]` equal to the
`i`-th item.  When `n` differs from the old size the calls to the allocator are
`allocate(n)`, then the destruction of the old elements, then the release of
the old block, and the storage is the new block; when `n` equals the old size
the storage pointer and the allocated blocks are unchanged and only `destroy`
is called. -/
theorem assign_forward_spec {T : Type} [Element T]
    (htriv : Element.implicit_lifetime T = true) (w : World T) (a : Arr) (xs src : List T)
    (ha : Holds w a xs) (ho : Owns w a) (hwf : w.WF)
    (hok : a.size ≠ src.length → w.script.head? ≠ some true) :
    ∃ t w1, assign a .forward src w = (.ok t, w1) ∧ assign_list a src w = (.ok t, w1) ∧
      t.size = src.length ∧ Holds w1 t src ∧
      (∀ i (h : i < src.length), read (t.subscript i) w1 = (.ok src[i], w1)) ∧
      (a.size ≠ src.length →
        t.data = w.next + 1 ∧ t.data ≠ a.data ∧
        (t.data, t.size) ∉ w.blocks ∧
        w1.blocks = (t.data, t.size) :: w.blocks.erase (a.data, a.size) ∧
        (∀ i, i < a.size → w1.mem (a.data + i) = .unalloc) ∧
        w1.trace = w.trace ++ [Event.allocate src.length] ++
          ((List.range a.size).map fun i => Event.destroy (a.data + i)) ++
          [Event.deallocate a.data a.size]) ∧
      (a.size = src.length →
        t.data = a.data ∧ w1.blocks = w.blocks ∧ w1.next = w.next ∧
        w1.trace = w.trace ++ (List.range a.size).map fun i => Event.destroy (a.data + i)) := by
  have hfit := owns_fit hwf ho
  by_cases hne : a.size_ = src.length
  · have h0 : Holds ((w.after_destroy a.arr_ a.size_).after_store a.arr_ src) a src := by
      have := holds_after_store (w.after_destroy a.arr_ a.size_) a.arr_ src
      rwa [← hne] at this
    have hrun := list_assign_reuse htriv w a xs src ha hne
    refine ⟨a, _, hrun, hrun, hne, h0, fun i h => read_live (h0.mem_eq i h),
      fun h => absurd hne h, fun _ => ⟨rfl, rfl, rfl, rfl⟩⟩
  · have hok1 : w.script.head? ≠ some true := hok hne
    have h0 := holds_after_store ((w.after_allocate src.length).after_dtor a.arr_ a.size_)
      (w.next + 1) src
    have hrun := list_assign_realloc htriv w a xs src ha ho hwf hne hok1
    refine ⟨⟨src.length, w.next + 1⟩, _, hrun, hrun, rfl, h0,
      fun i h => read_live (h0.mem_eq i h), fun _ => ⟨rfl, ?_, ?_, ?_, ?_, ?_⟩,
      fun h => absurd h hne⟩
    · simp only [data]; omega
    · intro hmem
      have := hwf _ hmem
      simp only [data, size] at this
      omega
    · simp only [World.after_store, after_dtor_blocks, World.after_allocate, data, size]
      rw [List.erase_cons_tail]
      simp only [beq_iff_eq, Prod.mk.injEq, not_and]
      intro h
      omega
    · intro i hi
      simp only [data, size] at hi ⊢
      rw [after_store_mem_out _ _ _ _ (Or.inl (by omega))]
      have hmem : (a.arr_, a.size_) ∈ (w.after_allocate src.length).blocks := by
        rcases ho with h | h
        · simp [World.after_allocate, h]
        · subst h; simp [mk_empty] at hi
      have e : a.arr_ ≤ a.arr_ + i ∧ a.arr_ + i < a.arr_ + a.size_ := by omega
      simp [World.after_dtor, hmem, World.after_deallocate, e]
    · simp only [World.after_store, after_dtor_trace, World.after_allocate, data, size]

theorem assign_forward_spec_witness :
    Holds sample_world arr_1_3 [1, 3] ∧ Owns sample_world arr_1_3 ∧ sample_world.WF ∧
    (arr_1_3.size ≠ [(4 : Int), 5, 6].length → sample_world.script.head? ≠ some true) ∧
    ∃ t w1, assign arr_1_3 .forward [(4 : Int), 5, 6] sample_world = (.ok t, w1) ∧
      assign_list arr_1_3 [(4 : Int), 5, 6] sample_world = (.ok t, w1) ∧
      t.size = [(4 : Int), 5, 6].length ∧ Holds w1 t [4, 5, 6] ∧
      (∀ i (h : i < [(4 : Int), 5, 6].length),
        read (t.subscript i) w1 = (.ok [(4 : Int), 5, 6][i], w1)) ∧
      (arr_1_3.size ≠ [(4 : Int), 5, 6].length →
        t.data = sample_world.next + 1 ∧ t.data ≠ arr_1_3.data ∧
        (t.data, t.size) ∉ sample_world.blocks ∧
        w1.blocks = (t.data, t.size) :: sample_world.blocks.erase (arr_1_3.data, arr_1_3.size) ∧
        (∀ i, i < arr_1_3.size → w1.mem (arr_1_3.data + i) = .unalloc) ∧
        w1.trace = sample_world.trace ++ [Event.allocate [(4 : Int), 5, 6].length] ++
          ((List.range arr_1_3.size).map fun i => Event.destroy (arr_1_3.data + i)) ++
          [Event.deallocate arr_1_3.data arr_1_3.size]) ∧
      (arr_1_3.size = [(4 : Int), 5, 6].length →
        t.data = arr_1_3.data ∧ w1.blocks = sample_world.blocks ∧
        w1.next = sample_world.next ∧
        w1.trace = sample_world.trace ++
          (List.range arr_1_3.size).map fun i => Event.destroy (arr_1_3.data + i)) :=
  ⟨by decide, by decide, by decide, fun _ => by decide,
    assign_forward_spec rfl sample_world arr_1_3 [1, 3] [4, 5, 6] (by decide) (by decide)
      (by decide) (fun _ => by decide)⟩


/-! ## Assignment of a single-pass range -/

theorem drain_eq_nil {T : Type} (l : List T) : assign_range_input.drain l = [] := by
  induction l with
  | nil => rfl
  | cons _ _ ih => simpa [assign_range_input.drain] using ih

theorem assign_input_loop_spec {T : Type} [Element T] :
    ∀ (src : List T) (p n : Nat) (w : World T), (∀ i, i < n → Writable w (p + i)) →
      assign_range_input.loop src p (p + n) w =
        (.ok (src.drop n, p + min n src.length), w.after_store p (src.take n)) := by
  intro src
  induction src with
  | nil =>
    intro p n w _
    simp [assign_range_input.loop, after_store_nil]
  | cons x rest ih =>
    intro p n w h
    cases n with
    | zero => simp [assign_range_input.loop, after_store_nil]
    | succ n =>
      have hne : p ≠ p + (n + 1) := by omega
      have h0 : Writable w p := by simpa using h 0 (Nat.succ_pos n)
      simp only [assign_range_input.loop, ne_eq]
      rw [if_pos hne, M.bind_apply, M.bind_ok (write_ok p x w h0)]
      rw [show p + (n + 1) = p + 1 + n by omega]
      rw [ih (p + 1) n _ (fun i hi => by
        have := h (i + 1) (by omega)
        rw [show p + 1 + i = p + (i + 1) by omega]
        exact writable_update w p _ x this), after_store_cons]
      simp only [List.drop_succ_cons, List.length_cons, List.take_succ_cons,
        Nat.add_min_add_right]
      rw [Nat.add_assoc, Nat.add_comm 1]

theorem assign_range_input_spec {T : Type} [Element T] (w : World T) (a : Arr) (src : List T)
    (hc : ∀ i, i < a.size_ → Writable w (a.arr_ + i)) :
    assign_range_input a src w =
      (.ok (a, []),
        (w.after_store a.arr_ (src.take a.size_)).after_destroy
          (a.arr_ + min a.size_ src.length) (a.size_ - min a.size_ src.length)) := by
  have hlen : (src.take a.size_).length = min a.size_ src.length := List.length_take _ _
  simp only [assign_range_input, begin_, end_, Nat.add_zero, M.bind_apply]
  rw [M.bind_ok (assign_input_loop_spec src a.arr_ a.size_ w hc)]
  simp only [M.bind_apply]
  have hd := destroy_range_spec (a.arr_ + min a.size_ src.length)
    (a.size_ - min a.size_ src.length) (w.after_store a.arr_ (src.take a.size_))
    (fun i hi => by
      rw [after_store_mem_out _ _ _ _ (Or.inr (by rw [hlen]; omega))]
      exact (show a.arr_ + min a.size_ src.length + i = a.arr_ + (min a.size_ src.length + i)
        by omega) ▸ (hc _ (by omega)).1)
  rw [show a.arr_ + min a.size_ src.length + (a.size_ - min a.size_ src.length) =
    a.arr_ + a.size_ by omega] at hd
  rw [M.bind_ok hd]
  simp [drain_eq_nil]

/-- C16: `assign(first, last)` from a single-pass source with the `k` items
`src` on a container of size `n` whose elements are live returns without error,
leaves the size `n`, the storage pointer, the allocated blocks and `next` as
they were, sets `a[i]` to the `i`-th item for `i < min(n, k)`, destroys the
cells `k .. n-1` (these are the only calls to the allocator, and these cells
hold no object afterwards), and has read the source to its end: the items
beyond `n` are dropped. -/
theorem assign_input_spec {T : Type} [Element T] (w : World T) (a : Arr) (xs src : List T)
    (ha : Holds w a xs) :
    ∃ w1, assign_range_input a src w = (.ok (a, []), w1) ∧
      assign a .input src w = (.ok a, w1) ∧
      (∀ i (h : i < src.length), i < a.size → w1.mem (a.subscript i) = .live src[i]) ∧
      (∀ i, src.length ≤ i → i < a.size → w1.mem (a.subscript i) = .raw) ∧
      w1.trace = w.trace ++
        ((List.range (a.size - src.length)).map
          fun i => Event.destroy (a.data + src.length + i)) ∧
      w1.blocks = w.blocks ∧ w1.next = w.next ∧ w1.script = w.script ∧
      (∀ j, j < a.data ∨ a.data + a.size ≤ j → w1.mem j = w.mem j) := by
  have hc : ∀ i, i < a.size_ → Writable w (a.arr_ + i) := by
    intro i hi
    obtain ⟨v, hv⟩ := ha.live i hi
    exact writable_of_live hv
  have hrun := assign_range_input_spec w a src hc
  have hlen : (src.take a.size_).length = min a.size_ src.length := List.length_take _ _
  refine ⟨_, hrun, ?_, ?_, ?_, ?_, rfl, rfl, rfl, ?_⟩
  · simp only [assign, M.bind_apply]
    rw [M.bind_ok hrun]
    rfl
  · intro i h hi
    simp only [size, subscript] at hi ⊢
    simp only [World.after_destroy]
    rw [if_neg (by omega)]
    have hi2 : i < (src.take a.size_).length := by rw [hlen]; omega
    rw [after_store_mem_in _ _ _ _ hi2]
    simp
  · intro i h hi
    simp only [size, subscript] at hi ⊢
    simp only [World.after_destroy]
    rw [if_pos (by omega)]
  · simp only [World.after_destroy, World.after_store, size, data]
    by_cases hk : src.length ≤ a.size_
    · rw [Nat.min_eq_right hk]
    · have h1 : a.size_ - src.length = 0 := by omega
      have h2 : a.size_ - min a.size_ src.length = 0 := by omega
      rw [h1, h2]
      simp
  · intro j hj
    simp only [size, data] at hj
    simp only [World.after_destroy]
    rw [if_neg (by omega), after_store_mem_out _ _ _ _ (by rw [hlen]; omega)]

theorem assign_input_spec_witness :
    Holds sample_world arr_1_2_3 [1, 2, 3] ∧
    ∃ w1, assign_range_input arr_1_2_3 [(8 : Int), 9] sample_world = (.ok (arr_1_2_3, []), w1) ∧
      assign arr_1_2_3 .input [(8 : Int), 9] sample_world = (.ok arr_1_2_3, w1) ∧
      (∀ i (h : i < [(8 : Int), 9].length), i < arr_1_2_3.size →
        w1.mem (arr_1_2_3.subscript i) = .live [(8 : Int), 9][i]) ∧
      (∀ i, [(8 : Int), 9].length ≤ i → i < arr_1_2_3.size →
        w1.mem (arr_1_2_3.subscript i) = .raw) ∧
      w1.trace = sample_world.trace ++
        ((List.range (arr_1_2_3.size - [(8 : Int), 9].length)).map
          fun i => Event.destroy (arr_1_2_3.data + [(8 : Int), 9].length + i)) ∧
      w1.blocks = sample_world.blocks ∧ w1.next = sample_world.next ∧
      w1.script = sample_world.script ∧
      (∀ j, j < arr_1_2_3.data ∨ arr_1_2_3.data + arr_1_2_3.size ≤ j →
        w1.mem j = sample_world.mem j) :=
  ⟨by decide, assign_input_spec sample_world arr_1_2_3 [1, 2, 3] [8, 9] (by decide)⟩


/-! ## Iterator arithmetic -/

/-- C20: the laws of iterator arithmetic, for addresses and offsets taken as
integers (the source leaves arithmetic outside the address range undefined):
`(it + n) - it == n`, `(it + n) - n == it`, `n + it == it + n`,
`(it + n) + m == it + (n + m)`; `++` and `--` undo each other and equal `+= 1`
and `-= 1`; the postfix forms return the old position and leave the iterator
where the prefix forms do; `a == b` iff `a - b == 0`, `a != b` is its negation,
`a < b` iff `b - a > 0`, and `>`, `<=`, `>=` are `b < a`, `!(b < a)`,
`!(a < b)`; for a container `c`, `c.end() - c.begin() == c.size()`, likewise
for `cbegin`/`cend`, and `*(c.begin() + i)` is the cell `c[i]` for
`i < c.size()`. -/
theorem iter_arithmetic_laws (it a b : Iter) (n m : Int) :
    Iter.diff (Iter.add it n) it = n ∧
    Iter.sub (Iter.add it n) n = it ∧
    Iter.radd n it = Iter.add it n ∧
    Iter.add (Iter.add it n) m = Iter.add it (n + m) ∧
    Iter.pre_dec (Iter.pre_inc it) = it ∧ Iter.pre_inc (Iter.pre_dec it) = it ∧
    Iter.pre_inc it = Iter.add_assign it 1 ∧ Iter.pre_dec it = Iter.sub_assign it 1 ∧
    (Iter.post_inc it).2 = it ∧ (Iter.post_inc it).1 = Iter.pre_inc it ∧
    (Iter.post_dec it).2 = it ∧ (Iter.post_dec it).1 = Iter.pre_dec it ∧
    (Iter.op_eq a b = true ↔ Iter.diff a b = 0) ∧
    Iter.op_ne a b = !(Iter.op_eq a b) ∧
    (Iter.op_lt a b = true ↔ Iter.diff b a > 0) ∧
    (Iter.op_gt a b = true ↔ Iter.op_lt b a = true) ∧
    (Iter.op_le a b = true ↔ ¬ Iter.op_lt b a = true) ∧
    (Iter.op_ge a b = true ↔ ¬ Iter.op_lt a b = true) ∧
    (∀ c : Arr, Iter.diff c.it_end c.it_begin = c.size ∧
      Iter.diff c.cend c.cbegin = c.size ∧
      ∀ i, i < c.size →
        Iter.subscript c.it_begin i = c.subscript i ∧
        (Iter.add c.it_begin i).arrow = c.subscript i ∧
        ∀ (T : Type) (w : World T),
          Iter.deref (Iter.add c.it_begin i) w = read (c.subscript i) w) := by
  refine ⟨?_, ?_, rfl, ?_, ?_, ?_, rfl, rfl, rfl, rfl, rfl, rfl, ?_, rfl, ?_, Iff.rfl, ?_, ?_, ?_⟩
  · simp [Iter.diff, Iter.add, Iter.add_assign]
  · simp [Iter.sub, Iter.sub_assign, Iter.add, Iter.add_assign]
  · simp [Iter.add, Iter.add_assign, Int.add_assoc]
  · simp [Iter.pre_dec, Iter.pre_inc]
  · simp [Iter.pre_dec, Iter.pre_inc]
  · simp only [Iter.op_eq, Iter.diff, beq_iff_eq]
    omega
  · simp only [Iter.op_lt, Iter.diff, decide_eq_true_eq]
    omega
  · simp [Iter.op_le]
  · simp [Iter.op_ge]
  · intro c
    refine ⟨?_, ?_, ?_⟩
    · simp [Iter.diff, it_end, it_begin, size]
    · simp [Iter.diff, cend, cbegin, it_end, it_begin, size]
    · intro i _
      have h1 : (Iter.add c.it_begin i).ptr_ = ((c.arr_ + i : Nat) : Int) := by
        simp [Iter.add, Iter.add_assign, it_begin]
      refine ⟨by simp [Iter.subscript, it_begin, subscript], by simpa [Iter.arrow, subscript] using h1,
        fun T w => ?_⟩
      have h0 : ¬ (((c.arr_ + i : Nat) : Int) < 0) := by omega
      simp only [Iter.deref, h1, h0, if_false, Int.toNat_ofNat, subscript]


/-! ## Class element types: assignment into storage that holds no object -/

/-- The world and the container after `Arr<std::string> a(2);` in the initial
world: the size constructor allocates two cells and constructs an empty string
in each. -/
theorem size_ctor_string :
    ∃ w, size_ctor 2 (World.init String) = (.ok ⟨2, 1⟩, w) ∧
      Holds w ⟨2, 1⟩ ["", ""] ∧ Owns w ⟨2, 1⟩ ∧ w.WF ∧
      w.trace = [.allocate 2, .construct 1, .construct 2] :=
  ⟨_, rfl, rfl, Or.inl (List.mem_singleton.2 rfl), by
    intro b hb
    have : b = (1, 2) := List.mem_singleton.1 hb
    subst this
    decide, rfl⟩

/-- C5 at a failing input: for the element type `std::string`, copy
construction from the container made by `Arr<std::string> a(2);` allocates a
block and then assigns into its cells, which hold no object: the behaviour is
undefined, and the allocator was never asked to construct an element. -/
theorem copy_ctor_string_undefined :
    ∃ a w, size_ctor 2 (World.init String) = (.ok a, w) ∧ Holds w a ["", ""] ∧
      ∃ w1, copy_ctor a w = (.error .undefined, w1) ∧
        w1.trace = w.trace ++ [Event.allocate 2] :=
  ⟨_, _, rfl, rfl, _, rfl, rfl⟩

/-- C8 at a failing input: for the element type `std::string`, with
`Arr<std::string> t(1), r(2);` the copy assignment `t = r` builds its
temporary by the copy constructor, which assigns into cells that hold no
object: the call neither succeeds nor fails with `bad_alloc`, its behaviour is
undefined. -/
theorem copy_assign_string_undefined :
    ∃ t w0 r w, size_ctor 1 (World.init String) = (.ok t, w0) ∧
      size_ctor 2 w0 = (.ok r, w) ∧ Holds w t [""] ∧ Holds w r ["", ""] ∧
      ∃ w1, copy_assign t r w = (.error .undefined, w1) ∧
        w1.trace = w.trace ++ [Event.allocate 2] :=
  ⟨_, _, _, _, rfl, rfl, rfl, rfl, _, rfl, rfl⟩

/-- C9 at failing inputs: for the element type `std::string`, with
`Arr<std::string> a(2);` both `a = {"x", "y", "z"}` (new block, never
constructed) and `a = {"x", "y"}` (same block, elements destroyed) assign into
cells that hold no object: the behaviour is undefined. -/
theorem list_assign_string_undefined :
    ∃ a w, size_ctor 2 (World.init String) = (.ok a, w) ∧ Holds w a ["", ""] ∧
      (∃ w1, list_assign a ["x", "y", "z"] w = (.error .undefined, w1) ∧
        w1.trace = w.trace ++
          [Event.allocate 3, .destroy 1, .destroy 2, .deallocate 1 2]) ∧
      (∃ w1, list_assign a ["x", "y"] w = (.error .undefined, w1) ∧
        w1.trace = w.trace ++ [Event.destroy 1, .destroy 2]) :=
  ⟨_, _, rfl, rfl, ⟨_, rfl, rfl⟩, ⟨_, rfl, rfl⟩⟩

/-- C11 at a failing input: for the element type `std::string`,
`Arr<std::string> a{"x", "y"};` allocates two cells and assigns the items into
them without constructing an element: the behaviour is undefined, and there is
no container to traverse. -/
theorem list_ctor_string_undefined :
    ∃ w1, list_ctor ["x", "y"] (World.init String) = (.error .undefined, w1) ∧
      w1.trace = [Event.allocate 2] :=
  ⟨_, rfl, rfl⟩

/-- C15 at failing inputs: for the element type `std::string`, with
`Arr<std::string> a(2);` the multi-pass `assign(first, last)` and
`assign(list)` with the three items `"x", "y", "z"`, and with the two items
`"x", "y"`, assign into cells that hold no object (a new block never
constructed, or the old block after its elements were destroyed): the
behaviour is undefined. -/
theorem assign_forward_string_undefined :
    ∃ a w, size_ctor 2 (World.init String) = (.ok a, w) ∧ Holds w a ["", ""] ∧
      (∃ w1, assign a .forward ["x", "y", "z"] w = (.error .undefined, w1) ∧
        assign_list a ["x", "y", "z"] w = (.error .undefined, w1)) ∧
      (∃ w1, assign a .forward ["x", "y"] w = (.error .undefined, w1) ∧
        assign_list a ["x", "y"] w = (.error .undefined, w1)) :=
  ⟨_, _, rfl, rfl, ⟨_, rfl, rfl⟩, ⟨_, rfl, rfl⟩⟩

end Arr

end demo
